import Mathlib

/-!
Verification development for the elfi core engine
(`elfi/core.py` and `elfi/graph.py`).

The Python source is shallowly embedded: stateful methods become pure
state-passing functions, numpy arrays become the nested `ND` datatype,
dask-delayed computations become chunks carrying their realized value as an
`Except` (building a delayed never raises; errors surface when the value is
realized), and Python exceptions become explicit error results paired with
the state at the moment of the raise.

The slice helpers (`elfi/utils.py`) and the store contract
(`elfi/storage.py`) are not part of the provided sources; they are
modelled from the spec where needed (see the doc comments marked
`Modelled from the spec:`).
-/

/-- Half-open index range `[start, stop)`, embedding a Python `slice`. -/
structure Sl where
  start : Nat
  stop : Nat
deriving Repr, DecidableEq

/-- Modelled from the spec: length of a half-open slice (`elfi.utils.slen`,
not under `src/`; the spec's glossary defines a slice as the half-open
index range `[start, stop)` addressing samples). -/
def slen (sl : Sl) : Nat := sl.stop - sl.start

/-- Modelled from the spec: intersection of two slices, shifted down by
`offset` (`elfi.utils.slice_intersect`, not under `src/`; §4.3 of the spec:
the sub-ranges of chunks overlapping a query, re-based into chunk-local
coordinates). -/
def slice_intersect (sl1 sl2 : Sl) (offset : Nat) : Sl :=
  ⟨max sl1.start sl2.start - offset, min sl1.stop sl2.stop - offset⟩

/-- Nested numeric array, embedding the numpy `ndarray` values the engine
moves around (an `atom` embeds a plain Python scalar, i.e. a non-array). -/
inductive ND where
  | atom : Int → ND
  | arr : List ND → ND
deriving Repr

/-- Decidable equality for `ND` (the automatic derivation does not handle
the nested occurrence of `List ND`). -/
def ND.deq : (a b : ND) → Decidable (a = b)
  | .atom x, .atom y =>
    if h : x = y then isTrue (congrArg ND.atom h)
    else isFalse (fun he => h (ND.atom.inj he))
  | .atom _, .arr _ => isFalse (fun he => ND.noConfusion he)
  | .arr _, .atom _ => isFalse (fun he => ND.noConfusion he)
  | .arr [], .arr [] => isTrue rfl
  | .arr [], .arr (_ :: _) => isFalse (fun he => List.noConfusion (ND.arr.inj he))
  | .arr (_ :: _), .arr [] => isFalse (fun he => List.noConfusion (ND.arr.inj he))
  | .arr (x :: xs), .arr (y :: ys) =>
    match ND.deq x y, ND.deq (.arr xs) (.arr ys) with
    | isTrue h1, isTrue h2 => isTrue (by subst h1; rw [ND.arr.inj h2])
    | isFalse h1, _ => isFalse (fun he => h1 (List.cons.inj (ND.arr.inj he)).1)
    | _, isFalse h2 => isFalse (fun he =>
        h2 (congrArg ND.arr (List.cons.inj (ND.arr.inj he)).2))
termination_by a _ => sizeOf a
decreasing_by all_goals (simp_wf; try omega)

instance : DecidableEq ND := ND.deq

/-- Number of dimensions of an `ND`, as numpy's `ndim` (0 for a scalar). -/
def ND.ndim : ND → Nat
  | .atom _ => 0
  | .arr [] => 1
  | .arr (x :: _) => 1 + x.ndim

/-- The rows of a 2-D-or-more array (its leading axis). -/
def ND.rows : ND → List ND
  | .atom v => [.atom v]
  | .arr l => l

/-- Row count of an array, numpy's `len`/`shape[0]`. -/
def ND.len (d : ND) : Nat := d.rows.length

/-- Python row slicing `d[sl.start : sl.stop]` along the leading axis
(clamping like Python slicing). -/
def ND.rowSlice (d : ND) (sl : Sl) : ND :=
  .arr ((d.rows.drop sl.start).take (slen sl))

/-- `np.atleast_1d`. -/
def atleast_1d : ND → ND
  | .atom v => .arr [.atom v]
  | .arr l => .arr l

/-- `elfi.core.normalize_data`: translates user-originated data into the
`(n, ...)`-shaped format of the core (string handling omitted: `ND` embeds
numeric data only). -/
def normalize_data (data : ND) (n : Nat) : ND :=
  let d := atleast_1d data
  if d.ndim = 1 then
    if d.len = n then
      -- data[:, None]
      .arr (d.rows.map (fun x => .arr [x]))
    else
      -- data[None, :], vstacked n times when n > 1
      if n > 1 then .arr (List.replicate n d) else .arr [d]
  else
    if d.len ≠ n then
      if n > 1 then .arr (List.replicate n d) else .arr [d]
    else d

/-- A `with_values` mapping from node name to override data
(a Python dict, embedded as an association list). -/
abbrev WV : Type := List (String × ND)

/-- `elfi.core.normalize_data_dict`. -/
def normalize_data_dict (dict : Option WV) (n : Nat) : Option WV :=
  dict.map (fun l => l.map (fun kv => (kv.1, normalize_data kv.2 n)))

/-- Dict lookup (first binding wins, as in a Python dict with unique keys). -/
def wvLookup (w : Option WV) (k : String) : Option ND :=
  match w with
  | none => none
  | some l => (l.find? (fun kv => kv.1 = k)).map (fun kv => kv.2)

/-- Node identity `make_key_id(inference_task.name, node.name, version)`
(`elfi.utils.make_key_id` is not under `src/`; the spec's data model pins it:
"an identity derived from (owning-graph name, node name, version)"). -/
structure NodeId where
  task : String
  node : String
  version : Nat
deriving Repr, DecidableEq

/-- The output dict of a node operation; the engine only ever consumes its
`"data"` entry, so the embedded record keeps exactly that. -/
structure OutputDict where
  data : ND
deriving Repr

/-- The input dict handed to a node operation: parent data tuple, batch
sample count `n`, and the starting `index` of the batch. -/
structure InputDict where
  data : List ND
  n : Nat
  index : Nat
deriving Repr

/-- `elfi.core.to_output_dict input_dict data=...`: output dict built from an
input dict by overriding the `"data"` entry. -/
def to_output_dict (_input : InputDict) (data : ND) : OutputDict := ⟨data⟩

/-- One delayed output chunk: the key `make_key(node.id, sl)` (identity part
and slice part), whether it is a `with_values` literal (built as
`delayed(output)`) rather than an operation application
(`delayed(self.operation)(dinput)`), and the value the delayed computation
realizes to (an error when the computation would raise when computed). -/
structure DelayedOutput where
  key_id : NodeId
  key_sl : Sl
  isLiteral : Bool
  out : Except String OutputDict
deriving Repr

/-- Modelled from the spec: contents of a configured backing store
(`elfi.storage` is not under `src/`; §6 of the spec: `write(chunk, onDone)`
persists a chunk's data for `(nodeId, range)`, `read(nodeId, range)` returns
it, `reset(nodeId)` purges all persisted data for that node). -/
structure StoreSt where
  entries : List (NodeId × Sl × Except String ND)
deriving Repr

/-- Store write of a chunk (keyed by the chunk's own key identity). -/
def StoreSt.write (s : StoreSt) (o : DelayedOutput) : StoreSt :=
  ⟨s.entries ++ [(o.key_id, o.key_sl, o.out.map (fun od => od.data))]⟩

/-- Store purge of every entry for `nid` (spec §6: "purges all persisted
data for that node"). -/
def StoreSt.resetStore (s : StoreSt) (nid : NodeId) : StoreSt :=
  ⟨s.entries.filter (fun e => e.1 ≠ nid)⟩

/-- Store read of the data for `(nid, sl)`. -/
def StoreSt.read_data (s : StoreSt) (nid : NodeId) (sl : Sl) : Except String ND :=
  match s.entries.find? (fun e => e.1 = nid ∧ e.2.1 = sl) with
  | some e => e.2.2
  | none => .error "store read: no data"

/-- `elfi.core.DelayedOutputCache`: the per-node slice-indexed output cache.
`node_id` is the identity the cache (and its store entries) are bound to. -/
structure DelayedOutputCache where
  delayed_outputs : List DelayedOutput
  stored_mask : List Bool
  store : Option StoreSt
  node_id : NodeId
deriving Repr

/-- `DelayedOutputCache.__len__`: total cached length, the sum of the chunk
key-slice lengths. -/
def DelayedOutputCache.length (c : DelayedOutputCache) : Nat :=
  (c.delayed_outputs.map (fun o => slen o.key_sl)).sum

/-- The mutation part of `DelayedOutputCache.append`: push the chunk, push
`stored = false`, issue the (asynchronous) store write. -/
def DelayedOutputCache.snoc (c : DelayedOutputCache) (output : DelayedOutput) :
    DelayedOutputCache :=
  { c with
    delayed_outputs := c.delayed_outputs ++ [output],
    stored_mask := c.stored_mask ++ [false],
    store := c.store.map (fun s => s.write output) }

/-- `DelayedOutputCache.append`.  A Python raise is returned as
`(some message, state at the raise)`: the guard fires before any mutation,
so the state returned with an error is the unchanged cache. -/
def DelayedOutputCache.append (c : DelayedOutputCache) (output : DelayedOutput) :
    Option String × DelayedOutputCache :=
  if c.length ≠ output.key_sl.start then
    (some "Appending a non matching slice", c)
  else
    (none, c.snoc output)

/-- `DelayedOutputCache.reset`: clears chunks and masks, purges the store
for the previous `node_id`, rebinds to `new_node_id`. -/
def DelayedOutputCache.resetCache (c : DelayedOutputCache) (new_node_id : NodeId) :
    DelayedOutputCache :=
  { delayed_outputs := [],
    stored_mask := [],
    store := c.store.map (fun s => s.resetStore c.node_id),
    node_id := new_node_id }

/-- `DelayedOutputCache._get_output_datalist`: the (realized values of the)
data pieces of the chunks overlapping `sl`, sub-sliced where partially
covered, in range order. -/
def DelayedOutputCache.get_output_datalist (c : DelayedOutputCache) (sl : Sl) :
    List (Except String ND) :=
  (c.delayed_outputs.zip c.stored_mask).filterMap (fun ow =>
    let output_sl := ow.1.key_sl
    let intsect_sl := slice_intersect output_sl sl 0
    if slen intsect_sl = 0 then none
    else
      let output_data : Except String ND :=
        if ow.2 then
          match c.store with
          | some s => s.read_data c.node_id output_sl
          | none => .error "store read: no store"
        else ow.1.out.map (fun od => od.data)
      if slen intsect_sl ≠ slen output_sl then
        some (output_data.map (fun d =>
          d.rowSlice (slice_intersect intsect_sl intsect_sl output_sl.start)))
      else some output_data)

/-- `DelayedOutputCache.__getitem__`: the realized value of the delayed data
in slice `sl` (empty array, a single chunk's data, or the `np.vstack` of the
overlapping pieces). -/
def DelayedOutputCache.getItem (c : DelayedOutputCache) (sl : Sl) : Except String ND :=
  match c.get_output_datalist sl with
  | [] => .ok (.arr [])
  | [o] => o
  | os => (os.mapM id).map (fun ds => ND.arr (ds.flatMap ND.rows))


/-- The static part of an operation graph (an `InferenceTask` with its
`Operation` nodes): node names, adjacency, the node operation functions, and
which nodes have a configured backing store.  Nodes are addressed by a
topological index: parents have smaller indices, children larger ones
(the engine's own cycle-prevention invariant, carried here as the
well-formedness proofs that make the recursive traversals terminate). -/
structure Net where
  sz : Nat
  task : String
  name : Nat → String
  parents : Nat → List Nat
  children : Nat → List Nat
  op : Nat → InputDict → Except String OutputDict
  storeCfg : Nat → Bool
  hpar : ∀ i j, j ∈ parents i → j < i
  hchild : ∀ i j, j ∈ children i → i < j ∧ j < sz

/-- The mutable per-node state of an `Operation`. -/
structure OpDyn where
  generate_index : Nat
  num_resets : Nat
  outputs : DelayedOutputCache

/-- The mutable state of the whole graph: one `OpDyn` per node index. -/
abbrev Dyn : Type := Nat → OpDyn

/-- Point update of the graph state. -/
def updateDyn (d : Dyn) (i : Nat) (f : OpDyn → OpDyn) : Dyn :=
  fun j => if j = i then f (d j) else d j

/-- `Operation.id` at a given version. -/
def nodeIdOf (net : Net) (i v : Nat) : NodeId := ⟨net.task, net.name i, v⟩

/-- Fresh state of every node, as built by `Operation.__init__`. -/
def initDyn (net : Net) : Dyn := fun i =>
  { generate_index := 0, num_resets := 0,
    outputs := { delayed_outputs := [], stored_mask := [],
                 store := if net.storeCfg i then some ⟨[]⟩ else none,
                 node_id := nodeIdOf net i 0 } }

/-- `Operation._create_delayed_output` for the missing range `new_sl` of
node `i`, given the already-normalized `with_values` and the parents'
delayed outputs `pdatas`: either the literal output dict (a `with_values`
override; dask still realizes the embedded parent inputs when the chunk is
computed, hence the `mapM`), or the application of the node operation to
the input dict. -/
def gsChunk (net : Net) (i : Nat) (new_sl : Sl) (wvn : Option WV) (version : Nat)
    (pdatas : List (Except String ND)) : DelayedOutput :=
  let n := slen new_sl
  let key := nodeIdOf net i version
  let out : Except String OutputDict :=
    match wvLookup wvn (net.name i) with
    | some v =>
      (pdatas.mapM id).map (fun ds => to_output_dict ⟨ds, n, new_sl.start⟩ v)
    | none =>
      (pdatas.mapM id).bind (fun ds => net.op i ⟨ds, n, new_sl.start⟩)
  ⟨key, new_sl, (wvLookup wvn (net.name i)).isSome, out⟩

/-- `Operation.get_slice`, fuelled for termination (parents have strictly
smaller indices, so fuel `i + 1` always suffices; the fuel-exhausted branch
is unreachable then).  The first component models the synchronous Python
control flow: `.error` is a raise, carrying the state at the raise; `.ok`
carries the value the returned delayed object realizes to.  Building a
delayed output never executes the node operation, so the operation's own
failure lives inside the inner `Except` of the appended chunk. -/
def get_sliceF : Nat → Net → Nat → Sl → Option WV → Dyn →
    (Except String (Except String ND)) × Dyn
  | 0, _, _, _, _, d => (.error "recursion fuel exhausted", d)
  | fuel+1, net, i, sl, wv, d =>
    let st := d i
    if st.outputs.length < sl.stop then
      let wvn := normalize_data_dict wv (sl.stop - st.outputs.length)
      let new_sl : Sl := ⟨st.outputs.length, sl.stop⟩
      -- _create_input_dict: tuple(p.get_slice(new_sl, with_values) for p in parents)
      let acc := (net.parents i).foldl (fun acc p =>
        match acc with
        | (.error e, d0) => (.error e, d0)
        | (.ok rs, d0) =>
          match get_sliceF fuel net p new_sl wvn d0 with
          | (.error e, d1) => (.error e, d1)
          | (.ok r, d1) => (.ok (rs ++ [r]), d1))
        ((.ok [], d) : (Except String (List (Except String ND))) × Dyn)
      match acc with
      | (.error e, d1) => (.error e, d1)
      | (.ok pdatas, d1) =>
        let output := gsChunk net i new_sl wvn (d1 i).num_resets pdatas
        match (d1 i).outputs.append output with
        | (some e, _) => (.error e, d1)
        | (none, c2) =>
          let d2 := updateDyn d1 i (fun s => { s with outputs := c2 })
          (.ok ((d2 i).outputs.getItem sl), d2)
    else
      (.ok (st.outputs.getItem sl), d)

/-- `Operation.get_slice` (wrapper supplying sufficient fuel). -/
def Operation.get_slice (net : Net) (i : Nat) (sl : Sl) (wv : Option WV) (d : Dyn) :
    (Except String (Except String ND)) × Dyn :=
  get_sliceF (i + 1) net i sl wv d

/-- The `while len(self._delayed_outputs) < b` loop of `Operation.generate`,
fuelled (each iteration extends the cache by at least one sample whenever the
batch size is positive, so fuel `b` suffices; the fuel-exhausted branch
models the loop's divergence otherwise). -/
def generate_loop (net : Net) (i : Nat) :
    Nat → Nat → Nat → Nat → Option WV → Dyn → (Except String Unit) × Dyn
  | 0, _, b, _, _, d =>
    if (d i).outputs.length < b then (.error "generate loop did not progress", d)
    else (.ok (), d)
  | fuel+1, a, b, bs, wvn, d =>
    let l := (d i).outputs.length
    if l < b then
      let n_batch := min (b - l) bs
      let batch_sl : Sl := ⟨l, l + n_batch⟩
      let batch_values := wvn.map (fun w =>
        w.map (fun kv => (kv.1, kv.2.rowSlice ⟨l - a, (l - a) + n_batch⟩)))
      match Operation.get_slice net i batch_sl batch_values d with
      | (.error e, d1) => (.error e, d1)
      | (.ok _, d1) => generate_loop net i fuel a b bs wvn d1
    else (.ok (), d)

/-- `Operation.generate`. -/
def Operation.generate (net : Net) (i : Nat) (n : Nat) (batch_size : Option Nat)
    (wv : Option WV) (d : Dyn) : (Except String (Except String ND)) × Dyn :=
  let a := (d i).generate_index
  let b := a + n
  let bs := match batch_size with
    | none => n
    | some 0 => n     -- Python `batch_size or n`: 0 is falsy
    | some k => k
  let wvn := normalize_data_dict wv n
  match generate_loop net i b a b bs wvn d with
  | (.error e, d1) => (.error e, d1)
  | (.ok _, d1) =>
    let d2 := updateDyn d1 i (fun s => { s with generate_index := b })
    (.ok ((d2 i).outputs.getItem ⟨a, b⟩), d2)

/-- `Operation.acquire`. -/
def Operation.acquire (net : Net) (i : Nat) (n starting : Nat) (batch_size : Option Nat)
    (d : Dyn) : (Except String (Except String ND)) × Dyn :=
  let sl : Sl := ⟨starting, starting + n⟩
  if (d i).generate_index < sl.stop then
    match Operation.generate net i (sl.stop - (d i).generate_index) batch_size none d with
    | (.error e, d1) => (.error e, d1)
    | (.ok _, d1) => Operation.get_slice net i sl none d1
  else Operation.get_slice net i sl none d

/-- The body of `Operation.reset` on one node's state: zero the generate
index, bump the version, reset the cache rebinding it to the new identity
(`self.id` is read after the bump in the source). -/
def resetNodeSt (net : Net) (i : Nat) (s : OpDyn) : OpDyn :=
  let v := s.num_resets + 1
  { generate_index := 0, num_resets := v,
    outputs := s.outputs.resetCache (nodeIdOf net i v) }

/-- `Operation.reset`, fuelled (children have strictly larger indices, so
fuel `net.sz + 1` always suffices).  Children are reset first, each with
`propagate := true` (the source's default), then the node itself. -/
def resetF (net : Net) : Nat → Nat → Bool → Dyn → Dyn
  | 0, _, _, d => d
  | fuel+1, i, propagate, d =>
    let d1 := if propagate then
        (net.children i).foldl (fun dd c => resetF net fuel c true dd) d
      else d
    updateDyn d1 i (resetNodeSt net i)

/-- `Operation.reset` (wrapper supplying sufficient fuel). -/
def Operation.reset (net : Net) (i : Nat) (propagate : Bool) (d : Dyn) : Dyn :=
  resetF net (net.sz + 1) i propagate d

/-- `j` is a descendant of `i` (reachable by one or more child edges). -/
inductive DescC (net : Net) : Nat → Nat → Prop where
  | child : ∀ {i j}, j ∈ net.children i → DescC net i j
  | trans : ∀ {i j k}, j ∈ net.children i → DescC net j k → DescC net i k

/-- `j` is `i` itself or reachable from `i` by parent edges (the set of
nodes a `get_slice` on `i` may touch). -/
inductive InUp (net : Net) : Nat → Nat → Prop where
  | refl : ∀ {i}, InUp net i i
  | step : ∀ {i j p}, InUp net i j → p ∈ net.parents j → InUp net i p

/-- `elfi.core.simulator_operation` (the pseudo-random stream is omitted:
the simulator is embedded as a deterministic function of its inputs). -/
def simulator_operation (simulator : List ND → Nat → ND) (input_dict : InputDict) :
    Except String OutputDict :=
  let n_sim := input_dict.n
  let data := simulator input_dict.data n_sim
  match data with
  | .atom _ => .error "Simulation operation output type incorrect."
  | .arr rows =>
    if rows.length ≠ n_sim ∨ (ND.arr rows).ndim < 2 then
      .error "Simulation operation output format incorrect."
    else .ok (to_output_dict input_dict (.arr rows))

/-- `elfi.core.summary_operation`. -/
def summary_operation (operation : List ND → ND) (input : InputDict) :
    Except String OutputDict :=
  let data := operation input.data
  let vec_len := input.n
  match data with
  | .atom _ => .error "Summary operation output type incorrect."
  | .arr rows =>
    if rows.length ≠ vec_len ∨ (ND.arr rows).ndim < 2 then
      .error "Summary operation output format incorrect."
    else .ok (to_output_dict input (.arr rows))

/-- Shape test `data.shape == (n, 1)`. -/
def ND.isShapeN1 (d : ND) (n : Nat) : Bool :=
  match d with
  | .atom _ => false
  | .arr rows =>
    rows.length = n && rows.all (fun r =>
      match r with
      | .arr [.atom _] => true
      | _ => false)

/-- `elfi.core.discrepancy_operation` (the observed tuple, added to the
input dict by `Discrepancy._create_input_dict`, is passed explicitly). -/
def discrepancy_operation (operation : List ND → List ND → ND) (observed : List ND)
    (input : InputDict) : Except String OutputDict :=
  let data := operation input.data observed
  let vec_len := input.n
  match data with
  | .atom _ => .error "Discrepancy operation output type incorrect."
  | .arr rows =>
    if ¬ (ND.arr rows).isShapeN1 vec_len then
      .error "Discrepancy operation output format incorrect."
    else .ok (to_output_dict input (.arr rows))

/-- The value held by a `Constant` node: `normalize_data(value, len(value))`
for array-like values, `normalize_data(value, 1)` otherwise. -/
def constantValue (value : ND) : ND :=
  match value with
  | .arr l => normalize_data (.arr l) l.length
  | .atom v => normalize_data (.atom v) 1

/-- The operation of a `Constant` node: `lambda input_dict: {"data": v}` —
it returns the stored value unchanged, whatever the requested `n` is. -/
def constant_op (value : ND) (_input : InputDict) : Except String OutputDict :=
  .ok ⟨constantValue value⟩

/-- A one-node net holding `Constant("c", 3)` (scenario A of the spec). -/
def constNet : Net where
  sz := 1
  task := "task"
  name := fun _ => "c"
  parents := fun _ => []
  children := fun _ => []
  op := fun _ => constant_op (.atom 3)
  storeCfg := fun _ => false
  hpar := by intro i j h; simp at h
  hchild := by intro i j h; simp at h

/-- The states a sequence of `generate` calls (pairs of `n` and
`batch_size`) drives a node through; stops at the first raise. -/
def genSeq (net : Net) (i : Nat) : List (Nat × Option Nat) → Dyn → (Option String) × Dyn
  | [], d => (none, d)
  | c :: rest, d =>
    match Operation.generate net i c.1 c.2 none d with
    | (.error e, d1) => (some e, d1)
    | (.ok _, d1) => genSeq net i rest d1

/-- The chunk key slices are contiguous, non-empty and non-overlapping
starting at `s`, and end exactly at `t`. -/
def contigFrom : Nat → List DelayedOutput → Nat → Bool
  | s, [], t => s = t
  | s, o :: rest, t =>
    (o.key_sl.start = s) && (s < o.key_sl.stop) && contigFrom o.key_sl.stop rest t

/-- The chunk ranges partition exactly `[0, total)`. -/
def coversExactly (chunks : List DelayedOutput) (total : Nat) : Bool :=
  contigFrom 0 chunks total

/-!  The structural graph layer (`elfi/graph.py`).  Nodes live in a store
(a list of records, a node's identity being its index), so that the
adjacency lists can be mutated as in the source. -/

/-- A `graph.Node`: name and adjacency lists (of node indices). -/
structure GNode where
  gname : String
  parents : List Nat
  children : List Nat
deriving Repr, DecidableEq

/-- The node store: node `i` is `st.getD i default`. -/
abbrev GSt : Type := List GNode

/-- Node record of index `i`. -/
def gnode (st : GSt) (i : Nat) : GNode := st.getD i ⟨"", [], []⟩

/-- Replace node record `i`. -/
def gset (st : GSt) (i : Nat) (nd : GNode) : GSt := st.set i nd

/-- `Node.descendants`, fuelled (the Python recursion terminates on acyclic
graphs; fuel `st.length` suffices then, see `descendantsL_reaches`):
start from a copy of `children`, then append each child's descendants,
deduplicating on the way. -/
def descendantsL : Nat → GSt → Nat → List Nat
  | 0, st, i => (gnode st i).children
  | fuel+1, st, i =>
    (gnode st i).children.foldl (fun acc c =>
      (descendantsL fuel st c).foldl (fun a m => if m ∈ a then a else a ++ [m]) acc)
      (gnode st i).children

/-- `Node.descendants` (wrapper supplying sufficient fuel). -/
def Node.descendants (st : GSt) (i : Nat) : List Nat := descendantsL st.length st i

/-- `Node._add_child`: insert `self` into `node.children` unless already
present; an out-of-range `index` raises, leaving the store unchanged.
The result pairs the raised message (if any) with the store. -/
def Node.add_child (st : GSt) (node selfI : Nat) (index : Option Int) :
    Option String × GSt :=
  let nd := gnode st node
  if selfI ∈ nd.children then (none, st)
  else
    match index with
    | none =>
      (none, gset st node { nd with children := nd.children ++ [selfI] })
    | some ix =>
      if ix < 0 ∨ ix > nd.children.length then ("Index out of bounds.", st)
      else (none, gset st node { nd with children := nd.children.insertIdx ix.toNat selfI })

/-- `Node.add_parent` (the `node` argument is always an existing node here,
so the `_ensure_node` conversion path is not modelled): cycle check first,
then insertion into `self.parents` (with its own bounds check), then
`node._add_child(self, index_child)`.  A raise carries the store at the
moment of the raise — in particular a raise inside `_add_child` leaves the
earlier `parents` insertion in place, as in the source. -/
def Node.add_parent (st : GSt) (selfI : Nat) (node : Option Nat)
    (index : Option Int) (index_child : Option Int) : Option String × GSt :=
  match node with
  | none => (none, st)
  | some nodeI =>
    if nodeI ∈ Node.descendants st selfI then
      ("Cannot have cyclic graph structure.", st)
    else
      let sd := gnode st selfI
      if nodeI ∈ sd.parents then
        Node.add_child st nodeI selfI index_child
      else
        match index with
        | none =>
          let st1 := gset st selfI { sd with parents := sd.parents ++ [nodeI] }
          Node.add_child st1 nodeI selfI index_child
        | some ix =>
          if ix < 0 ∨ ix > sd.parents.length then ("Index out of bounds.", st)
          else
            let st1 := gset st selfI
              { sd with parents := sd.parents.insertIdx ix.toNat nodeI }
            Node.add_child st1 nodeI selfI index_child

/-- `Node.rename`. -/
def Node.rename (st : GSt) (i : Nat) (nm : String) : GSt :=
  gset st i { gnode st i with gname := nm }

/-- The `Graph.nodes` dict: name-to-index mapping with Python dict
semantics (insertion order kept, update-in-place for an existing key). -/
abbrev GDict : Type := List (String × Nat)

/-- Python dict assignment `dict[k] = v`. -/
def dictSet (g : GDict) (k : String) (v : Nat) : GDict :=
  if g.any (fun kv => kv.1 = k) then
    g.map (fun kv => if kv.1 = k then (k, v) else kv)
  else g ++ [(k, v)]

/-- Python dict lookup. -/
def dictGet (g : GDict) (k : String) : Option Nat :=
  (g.find? (fun kv => kv.1 = k)).map (fun kv => kv.2)

/-- The `while name_old in self.nodes: name_old += "_old"` loop of
`Graph.add_node`, fuelled (each step lengthens the candidate, so
`keys.length + 1` attempts always reach a fresh name, see
`freshNameF_not_mem`). -/
def freshNameF : Nat → GDict → String → String
  | 0, _, nm => nm
  | fuel+1, g, nm =>
    if g.any (fun kv => kv.1 = nm) then freshNameF fuel g (nm ++ "_old") else nm

/-- `Graph.add_node` over the pair (dict, node store), for the node of
index `nodeI`: dedupe by identity; on a name collision rename the old
occupant with `"_old"` suffixes, re-register it, then register the new
node under the original name. -/
def Graph.add_node (g : GDict) (st : GSt) (nodeI : Nat) : GDict × GSt :=
  if nodeI ∈ g.map (fun kv => kv.2) then (g, st)
  else
    let nm := (gnode st nodeI).gname
    match dictGet g nm with
    | some oldI =>
      let name_old := freshNameF (g.length + 1) g nm
      let st1 := Node.rename st oldI name_old
      let g1 := dictSet g name_old oldI
      (dictSet g1 nm nodeI, st1)
    | none => (dictSet g nm nodeI, st)

/-- `j` is reachable from `i` along one or more child edges in the store. -/
inductive GReach (st : GSt) : Nat → Nat → Prop where
  | child : ∀ {i j}, j ∈ (gnode st i).children → GReach st i j
  | trans : ∀ {i j k}, j ∈ (gnode st i).children → GReach st j k → GReach st i k

/-- `b` is an ancestor of `a`: reachable from `a` along one or more parent
edges (the transitive closure `Node.ancestors` computes). -/
inductive GAncestor (st : GSt) : Nat → Nat → Prop where
  | parent : ∀ {a b}, b ∈ (gnode st a).parents → GAncestor st a b
  | trans : ∀ {a c b}, c ∈ (gnode st a).parents → GAncestor st c b → GAncestor st a b

/-- Well-formed store: adjacency indices are in range and topologically
ordered (children have larger indices — the invariant cycle prevention
maintains), and the parent and child lists mirror each other. -/
def GWf (st : GSt) : Prop :=
  (∀ i, i < st.length → ∀ c ∈ (gnode st i).children, i < c ∧ c < st.length) ∧
  (∀ i, i < st.length → ∀ p ∈ (gnode st i).parents, p < st.length) ∧
  (∀ i, i < st.length → ∀ j, j < st.length →
    (j ∈ (gnode st i).children ↔ i ∈ (gnode st j).parents))


/-- The simulator output violates the shape contract for batch size `n`
(not an array, wrong leading dimension, or fewer than two dimensions). -/
def simShapeBad (data : ND) (n : Nat) : Prop :=
  match data with
  | .atom _ => True
  | .arr rows => rows.length ≠ n ∨ (ND.arr rows).ndim < 2

/-- The shape-contract error messages raised by the three leaf-operation
wrappers (`simulator_operation`, `summary_operation`,
`discrepancy_operation`) when the user function's output violates the
shape contract. -/
def shapeContractMsg (msg : String) : Prop :=
  msg = "Simulation operation output type incorrect." ∨
  msg = "Simulation operation output format incorrect." ∨
  msg = "Summary operation output type incorrect." ∨
  msg = "Summary operation output format incorrect." ∨
  msg = "Discrepancy operation output type incorrect." ∨
  msg = "Discrepancy operation output format incorrect."

/-- A one-node net whose operation is a `Simulator` with a user function
returning a 1-D array — a shape-contract violation on every batch. -/
def exNetC6 : Net where
  sz := 1
  task := "task"
  name := fun _ => "sim"
  parents := fun _ => []
  children := fun _ => []
  op := fun _ => simulator_operation (fun _ _ => .arr [.atom 1])
  storeCfg := fun _ => false
  hpar := by intro i j h; simp at h
  hchild := by intro i j h; simp at h

/-- A two-node net (node 0 = "A" with child node 1 = "B"), both with a
configured store — the reset-isolation scenario. -/
def exNetC3 : Net where
  sz := 2
  task := "task"
  name := fun i => if i = 0 then "A" else "B"
  parents := fun i => if i = 1 then [0] else []
  children := fun i => if i = 0 then [1] else []
  op := fun _ _ => .ok ⟨.arr [.arr [.atom 0]]⟩
  storeCfg := fun _ => true
  hpar := by
    intro i j h
    by_cases hi : i = 1
    · subst hi; simp at h; omega
    · simp [hi] at h
  hchild := by
    intro i j h
    by_cases hi : i = 0
    · subst hi; simp at h; omega
    · simp [hi] at h

/-- A three-node family: roots "X" (0) and "Y" (1), child "C" (2) — the
override-correctness scenario. -/
def exNetC4 : Net where
  sz := 3
  task := "task"
  name := fun i => if i = 0 then "X" else if i = 1 then "Y" else "C"
  parents := fun i => if i = 2 then [0, 1] else []
  children := fun i => if i = 0 then [2] else if i = 1 then [2] else []
  op := fun i input =>
    if i = 1 then .ok ⟨.arr (List.replicate input.n (.arr [.atom 7]))⟩
    else .ok ⟨.arr (List.replicate input.n (.arr [.atom 9]))⟩
  storeCfg := fun _ => false
  hpar := by
    intro i j h
    by_cases hi : i = 2
    · subst hi; simp at h; rcases h with h | h <;> omega
    · simp [hi] at h
  hchild := by
    intro i j h
    by_cases hi : i = 0
    · subst hi; simp at h; omega
    · by_cases hi1 : i = 1
      · subst hi1; simp [hi] at h; omega
      · simp [hi, hi1] at h

/-- The state step a `get_slice` on a parentless node performs when its
cache must be extended: append the one new chunk for the missing tail. -/
def gsRootStep (net : Net) (i : Nat) (sl : Sl) (wv : Option WV) (d : Dyn) : Dyn :=
  updateDyn d i (fun s =>
    { s with outputs :=
        ((d i).outputs.snoc
          (gsChunk net i ⟨(d i).outputs.length, sl.stop⟩
            (normalize_data_dict wv (sl.stop - (d i).outputs.length))
            (d i).num_resets [])) })

/-- The canonical state of a parentless node after its first `get_slice`
over `[0, n)` with (already-normalized) override values `wvq`. -/
def rootCanonSt (net : Net) (p n : Nat) (wvq : Option WV) : OpDyn :=
  { generate_index := 0, num_resets := 0,
    outputs := ((initDyn net p).outputs.snoc
      (gsChunk net p ⟨0, n⟩ (normalize_data_dict wvq n) 0 [])) }

/-- One entry of the `Graph.nodes` dict. -/
abbrev GDictEntry' : Type := String × Nat

/-!  Basic lemmas about the cache. -/

theorem DelayedOutputCache.length_snoc (c : DelayedOutputCache) (o : DelayedOutput) :
    (c.snoc o).length = c.length + slen o.key_sl := by
  simp [DelayedOutputCache.length, DelayedOutputCache.snoc]

theorem DelayedOutputCache.snoc_delayed_outputs (c : DelayedOutputCache)
    (o : DelayedOutput) : (c.snoc o).delayed_outputs = c.delayed_outputs ++ [o] := rfl

theorem DelayedOutputCache.append_ok (c : DelayedOutputCache) (o : DelayedOutput)
    (h : c.length = o.key_sl.start) : c.append o = (none, c.snoc o) := by
  simp [DelayedOutputCache.append, h]

/-!  The main description of `get_sliceF`. -/

theorem get_sliceF_covered (net : Net) (fuel i : Nat) (sl : Sl) (wv : Option WV)
    (d : Dyn) (h : ¬ (d i).outputs.length < sl.stop) :
    get_sliceF (fuel + 1) net i sl wv d = (.ok ((d i).outputs.getItem sl), d) := by
  simp only [get_sliceF]
  rw [if_neg h]

theorem get_sliceF_ok (net : Net) :
    ∀ (fuel i : Nat), i < fuel → ∀ (sl : Sl) (wv : Option WV) (d : Dyn),
    ∃ r d', get_sliceF fuel net i sl wv d = (.ok r, d') ∧
      (∀ j, i < j → d' j = d j) ∧
      (∀ j, (d' j).generate_index = (d j).generate_index ∧
            (d' j).num_resets = (d j).num_resets) ∧
      ((d i).outputs.length < sl.stop →
         ∃ o, o.key_sl = ⟨(d i).outputs.length, sl.stop⟩ ∧
           (d' i).outputs.delayed_outputs = (d i).outputs.delayed_outputs ++ [o] ∧
           ∃ pdatas, o = gsChunk net i ⟨(d i).outputs.length, sl.stop⟩
             (normalize_data_dict wv (sl.stop - (d i).outputs.length))
             (d i).num_resets pdatas) ∧
      (¬ (d i).outputs.length < sl.stop → d' = d) ∧
      (d' i).outputs.length = max (d i).outputs.length sl.stop ∧
      r = (d' i).outputs.getItem sl := by
  intro fuel
  induction fuel with
  | zero => intro i hi; omega
  | succ fuel ih =>
    intro i hi sl wv d
    by_cases hlen : (d i).outputs.length < sl.stop
    · -- the cache must be extended
      have hfold : ∀ (ps : List Nat), (∀ p ∈ ps, p < i ∧ p < fuel) →
          ∀ (rs0 : List (Except String ND)) (d0 : Dyn),
          ∃ rs d1,
            List.foldl (fun (acc : (Except String (List (Except String ND))) × Dyn)
                (p : Nat) =>
              match acc with
              | (.error e, d0) => (.error e, d0)
              | (.ok rs, d0) =>
                match get_sliceF fuel net p ⟨(d i).outputs.length, sl.stop⟩
                    (normalize_data_dict wv (sl.stop - (d i).outputs.length)) d0 with
                | (.error e, d1) => (.error e, d1)
                | (.ok r, d1) => (.ok (rs ++ [r]), d1)) (.ok rs0, d0) ps = (.ok rs, d1) ∧
            (∀ j, (∀ p ∈ ps, p < j) → d1 j = d0 j) ∧
            (∀ j, (d1 j).generate_index = (d0 j).generate_index ∧
                  (d1 j).num_resets = (d0 j).num_resets) := by
        intro ps
        induction ps with
        | nil =>
          intro _ rs0 d0
          exact ⟨rs0, d0, rfl, fun _ _ => rfl, fun _ => ⟨rfl, rfl⟩⟩
        | cons p ps ihp =>
          intro hps rs0 d0
          have hp := hps p (List.mem_cons_self p ps)
          obtain ⟨r, dp, heq, hfr, hpre, -, -, -, -⟩ :=
            ih p hp.2 ⟨(d i).outputs.length, sl.stop⟩
              (normalize_data_dict wv (sl.stop - (d i).outputs.length)) d0
          obtain ⟨rs, d1, heq2, hfr2, hpre2⟩ :=
            ihp (fun q hq => hps q (List.mem_cons_of_mem p hq)) (rs0 ++ [r]) dp
          refine ⟨rs, d1, ?_, ?_, ?_⟩
          · simpa [heq] using heq2
          · intro j hj
            have h1 : d1 j = dp j := hfr2 j (fun q hq => hj q (List.mem_cons_of_mem p hq))
            have h2 : dp j = d0 j := hfr j (hj p (List.mem_cons_self p ps))
            rw [h1, h2]
          · intro j
            have h1 := hpre2 j
            have h2 := hpre j
            exact ⟨h1.1.trans h2.1, h1.2.trans h2.2⟩
      obtain ⟨rs, d1, hfeq, hffr, hfpre⟩ :=
        hfold (net.parents i)
          (fun p hp => ⟨net.hpar i p hp, by have := net.hpar i p hp; omega⟩) [] d
      have hd1i : d1 i = d i := hffr i (fun p hp => net.hpar i p hp)
      set wvn := normalize_data_dict wv (sl.stop - (d i).outputs.length) with hwvn
      set nsl : Sl := ⟨(d i).outputs.length, sl.stop⟩ with hnsl
      set outc := gsChunk net i nsl wvn (d1 i).num_resets rs with houtc
      have happ : (d1 i).outputs.append outc = (none, (d1 i).outputs.snoc outc) := by
        apply DelayedOutputCache.append_ok
        rw [hd1i, houtc]
        rfl
      have hkey : get_sliceF (fuel + 1) net i sl wv d =
          (.ok (((updateDyn d1 i (fun s => { s with outputs := (d1 i).outputs.snoc outc }))
              i).outputs.getItem sl),
            updateDyn d1 i (fun s => { s with outputs := (d1 i).outputs.snoc outc })) := by
        simp only [get_sliceF]
        rw [if_pos hlen]
        rw [← hwvn, ← hnsl]
        simp only [hfeq]
        rw [← houtc]
        simp only [happ]
      refine ⟨_, _, hkey, ?_, ?_, ?_, ?_, ?_, rfl⟩
      · intro j hj
        have hji : j ≠ i := by omega
        rw [updateDyn, if_neg hji]
        exact hffr j (fun p hp => by have := net.hpar i p hp; omega)
      · intro j
        by_cases hji : j = i
        · subst hji
          rw [updateDyn, if_pos rfl]
          exact hfpre j
        · rw [updateDyn, if_neg hji]
          exact hfpre j
      · intro _
        refine ⟨outc, ?_, ?_, rs, ?_⟩
        · rw [houtc]; rfl
        · rw [updateDyn, if_pos rfl]
          rw [DelayedOutputCache.snoc_delayed_outputs, hd1i]
        · rw [houtc, hd1i]
      · intro h; omega
      · rw [updateDyn, if_pos rfl]
        rw [DelayedOutputCache.length_snoc, hd1i]
        have : slen outc.key_sl = sl.stop - (d i).outputs.length := by
          rw [houtc]; rfl
        rw [this]
        omega
    · refine ⟨(d i).outputs.getItem sl, d, ?_, fun _ _ => rfl,
        fun _ => ⟨rfl, rfl⟩, fun h => absurd h hlen, fun _ => rfl, ?_, rfl⟩
      · exact get_sliceF_covered net fuel i sl wv d hlen
      · omega

theorem get_sliceF_root_extend (net : Net) (fuel i : Nat) (sl : Sl) (wv : Option WV)
    (d : Dyn) (hroot : net.parents i = []) (hlen : (d i).outputs.length < sl.stop) :
    get_sliceF (fuel + 1) net i sl wv d =
      (.ok ((gsRootStep net i sl wv d i).outputs.getItem sl), gsRootStep net i sl wv d) := by
  have happ := DelayedOutputCache.append_ok ((d i).outputs)
    (gsChunk net i ⟨(d i).outputs.length, sl.stop⟩
      (normalize_data_dict wv (sl.stop - (d i).outputs.length)) (d i).num_resets [])
    rfl
  simp only [get_sliceF]
  rw [if_pos hlen, hroot]
  simp only [List.foldl_nil]
  simp only [happ]
  simp only [gsRootStep]

/-!  The `generate` loop. -/

theorem contigFrom_append (l1 : List DelayedOutput) :
    ∀ (l2 : List DelayedOutput) (s t u : Nat),
    contigFrom s l1 t = true → contigFrom t l2 u = true →
    contigFrom s (l1 ++ l2) u = true := by
  induction l1 with
  | nil =>
    intro l2 s t u h1 h2
    simp only [contigFrom, decide_eq_true_eq] at h1
    subst h1
    simpa using h2
  | cons o l1 ih =>
    intro l2 s t u h1 h2
    simp only [contigFrom, Bool.and_eq_true, decide_eq_true_eq] at h1 ⊢
    exact ⟨⟨h1.1.1, h1.1.2⟩, ih l2 o.key_sl.stop t u h1.2 h2⟩

theorem generate_loop_noop (net : Net) (i : Nat) (fuel a b bs : Nat) (wvn : Option WV)
    (d : Dyn) (h : ¬ (d i).outputs.length < b) :
    generate_loop net i fuel a b bs wvn d = (.ok (), d) := by
  cases fuel with
  | zero => simp only [generate_loop]; rw [if_neg h]
  | succ fuel => simp only [generate_loop]; rw [if_neg h]

theorem generate_loop_ok (net : Net) (i : Nat) :
    ∀ (fuel : Nat) (a b bs : Nat) (wvn : Option WV) (d : Dyn),
    b ≤ (d i).outputs.length + fuel → 1 ≤ bs →
    ∃ d1 os, generate_loop net i fuel a b bs wvn d = (.ok (), d1) ∧
      (d1 i).outputs.length = max (d i).outputs.length b ∧
      (d1 i).outputs.delayed_outputs = (d i).outputs.delayed_outputs ++ os ∧
      contigFrom (d i).outputs.length os (max (d i).outputs.length b) = true ∧
      (∀ j, i < j → d1 j = d j) ∧
      (∀ j, (d1 j).generate_index = (d j).generate_index ∧
            (d1 j).num_resets = (d j).num_resets) := by
  intro fuel
  induction fuel with
  | zero =>
    intro a b bs wvn d hfuel hbs
    have hnb : ¬ (d i).outputs.length < b := by omega
    refine ⟨d, [], generate_loop_noop net i 0 a b bs wvn d hnb, by omega, by simp, ?_,
      fun _ _ => rfl, fun _ => ⟨rfl, rfl⟩⟩
    simp only [contigFrom, decide_eq_true_eq]
    omega
  | succ fuel ih =>
    intro a b bs wvn d hfuel hbs
    by_cases hl : (d i).outputs.length < b
    · obtain ⟨r, d', hgs, hfr, hpre, hext, -, hlen', hr⟩ :=
        get_sliceF_ok net (i + 1) i (Nat.lt_succ_self i)
          ⟨(d i).outputs.length, (d i).outputs.length + min (b - (d i).outputs.length) bs⟩
          (wvn.map (fun w => w.map (fun kv => (kv.1, kv.2.rowSlice
            ⟨(d i).outputs.length - a,
             ((d i).outputs.length - a) + min (b - (d i).outputs.length) bs⟩)))) d
      have hnb : 1 ≤ min (b - (d i).outputs.length) bs := by omega
      have hstop : (d i).outputs.length <
          (d i).outputs.length + min (b - (d i).outputs.length) bs := by omega
      obtain ⟨o, hokey, hochunks, -⟩ := hext hstop
      have hlen2 : (d' i).outputs.length =
          (d i).outputs.length + min (b - (d i).outputs.length) bs := by
        rw [hlen']; dsimp only; omega
      obtain ⟨d1, os, hloop, hlen1, hchunks1, hcontig1, hfr1, hpre1⟩ :=
        ih a b bs wvn d' (by omega) hbs
      refine ⟨d1, o :: os, ?_, ?_, ?_, ?_, ?_, ?_⟩
      · simp only [generate_loop]
        rw [if_pos hl]
        simp only [Operation.get_slice]
        simp only [hgs]
        exact hloop
      · rw [hlen1, hlen2]; omega
      · rw [hchunks1, hochunks]; simp
      · simp only [contigFrom, Bool.and_eq_true, decide_eq_true_eq]
        refine ⟨⟨?_, ?_⟩, ?_⟩
        · rw [hokey]
        · rw [hokey]; dsimp only; omega
        · rw [hokey]
          have hmb : max (d i).outputs.length b = b := by omega
          rw [hmb]
          have h2 : max (d' i).outputs.length b = b := by omega
          rw [h2, hlen2] at hcontig1
          dsimp only
          exact hcontig1
      · intro j hj; rw [hfr1 j hj, hfr j hj]
      · intro j
        have h1 := hpre1 j
        have h2 := hpre j
        exact ⟨h1.1.trans h2.1, h1.2.trans h2.2⟩
    · refine ⟨d, [], generate_loop_noop net i (fuel + 1) a b bs wvn d hl, by omega,
        by simp, ?_, fun _ _ => rfl, fun _ => ⟨rfl, rfl⟩⟩
      simp only [contigFrom, decide_eq_true_eq]
      omega

theorem contigFrom_le (l : List DelayedOutput) :
    ∀ s t, contigFrom s l t = true → s ≤ t := by
  induction l with
  | nil => intro s t h; simp only [contigFrom, decide_eq_true_eq] at h; omega
  | cons o l ih =>
    intro s t h
    simp only [contigFrom, Bool.and_eq_true, decide_eq_true_eq] at h
    have := ih o.key_sl.stop t h.2
    omega

theorem contigFrom_self_nil (l : List DelayedOutput) (s : Nat)
    (h : contigFrom s l s = true) : l = [] := by
  cases l with
  | nil => rfl
  | cons o l =>
    simp only [contigFrom, Bool.and_eq_true, decide_eq_true_eq] at h
    have := contigFrom_le l o.key_sl.stop s h.2
    omega

theorem generate_ok (net : Net) (i n : Nat) (batch_size : Option Nat) (wv : Option WV)
    (d : Dyn) (hinv : (d i).generate_index ≤ (d i).outputs.length) :
    ∃ r d2 os, Operation.generate net i n batch_size wv d = (.ok r, d2) ∧
      (d2 i).generate_index = (d i).generate_index + n ∧
      (∀ j, j ≠ i → (d2 j).generate_index = (d j).generate_index) ∧
      (∀ j, (d2 j).num_resets = (d j).num_resets) ∧
      (∀ j, i < j → d2 j = d j) ∧
      (d2 i).outputs.delayed_outputs = (d i).outputs.delayed_outputs ++ os ∧
      contigFrom (d i).outputs.length os ((d2 i).outputs.length) = true ∧
      (d2 i).outputs.length = max (d i).outputs.length ((d i).generate_index + n) ∧
      r = (d2 i).outputs.getItem ⟨(d i).generate_index, (d i).generate_index + n⟩ := by
  simp only [Operation.generate]
  generalize hbsv : (match batch_size with | none => n | some 0 => n | some k => k) = bsv
  have hside : 1 ≤ bsv ∨ ¬ ((d i).outputs.length < (d i).generate_index + n) := by
    rcases batch_size with _ | k
    · simp only at hbsv
      subst hbsv
      by_cases hn : 1 ≤ n
      · exact Or.inl hn
      · right; omega
    · rcases k with _ | k
      · simp only at hbsv
        subst hbsv
        by_cases hn : 1 ≤ n
        · exact Or.inl hn
        · right; omega
      · simp only at hbsv
        subst hbsv
        exact Or.inl (Nat.succ_le_succ (Nat.zero_le k))
  by_cases hlb : (d i).outputs.length < (d i).generate_index + n
  · have hbs1 : 1 ≤ bsv := by
      rcases hside with h | h
      · exact h
      · exact absurd hlb h
    obtain ⟨d1, os, hloop, hlen1, hchunks1, hcontig1, hfr1, hpre1⟩ :=
      generate_loop_ok net i ((d i).generate_index + n) (d i).generate_index
        ((d i).generate_index + n) bsv (normalize_data_dict wv n) d (by omega) hbs1
    simp only [hloop]
    refine ⟨_, _, os, rfl, ?_, ?_, ?_, ?_, ?_, ?_, ?_, rfl⟩
    · rw [updateDyn, if_pos rfl]
    · intro j hj; rw [updateDyn, if_neg hj]; exact (hpre1 j).1
    · intro j
      by_cases hj : j = i
      · subst hj; rw [updateDyn, if_pos rfl]; exact (hpre1 j).2
      · rw [updateDyn, if_neg hj]; exact (hpre1 j).2
    · intro j hj
      have : j ≠ i := by omega
      rw [updateDyn, if_neg this]
      exact hfr1 j hj
    · rw [updateDyn, if_pos rfl]; exact hchunks1
    · rw [updateDyn, if_pos rfl]
      rw [hlen1]
      exact hcontig1
    · rw [updateDyn, if_pos rfl]; exact hlen1
  · rw [generate_loop_noop net i ((d i).generate_index + n) (d i).generate_index
      ((d i).generate_index + n) bsv (normalize_data_dict wv n) d hlb]
    refine ⟨_, _, [], rfl, ?_, ?_, ?_, ?_, ?_, ?_, ?_, rfl⟩
    · rw [updateDyn, if_pos rfl]
    · intro j hj; rw [updateDyn, if_neg hj]
    · intro j
      by_cases hj : j = i
      · subst hj; rw [updateDyn, if_pos rfl]
      · rw [updateDyn, if_neg hj]
    · intro j hj
      have : j ≠ i := by omega
      rw [updateDyn, if_neg this]
    · rw [updateDyn, if_pos rfl]; simp
    · rw [updateDyn, if_pos rfl]
      simp only [contigFrom, decide_eq_true_eq]
    · rw [updateDyn, if_pos rfl]; dsimp only; omega

theorem genSeq_inv (net : Net) (i : Nat) :
    ∀ (calls : List (Nat × Option Nat)) (d : Dyn),
    (d i).generate_index = (d i).outputs.length →
    coversExactly (d i).outputs.delayed_outputs ((d i).generate_index) = true →
    ∃ d', genSeq net i calls d = (none, d') ∧
      (d' i).generate_index = (d' i).outputs.length ∧
      coversExactly (d' i).outputs.delayed_outputs ((d' i).generate_index) = true := by
  intro calls
  induction calls with
  | nil => intro d h1 h2; exact ⟨d, rfl, h1, h2⟩
  | cons c calls ih =>
    intro d h1 h2
    obtain ⟨r, d2, os, hgen, hgi, -, -, -, hchunks, hcontig, hlen, -⟩ :=
      generate_ok net i c.1 c.2 none d (le_of_eq h1)
    have h1' : (d2 i).generate_index = (d2 i).outputs.length := by omega
    have h2' : coversExactly (d2 i).outputs.delayed_outputs ((d2 i).generate_index)
        = true := by
      rw [coversExactly] at h2 ⊢
      rw [hchunks, h1']
      exact contigFrom_append _ _ 0 ((d i).outputs.length) _ (by rw [← h1]; exact h2)
        hcontig
    obtain ⟨d', hseq, hd1, hd2⟩ := ih d2 h1' h2'
    refine ⟨d', ?_, hd1, hd2⟩
    simp only [genSeq, hgen]
    exact hseq

/-- Claim C1: for every Operation node and every sequence of `generate`
calls with arbitrary (positive) batch sizes, from a fresh state, the chunks
in the node's output cache are contiguous, non-overlapping and cover
exactly `[0, generated length)`; and `DelayedOutputCache.append` raises,
before any mutation of the cache, whenever the appended chunk's start index
differs from the current total cached length. -/
theorem claim_C1 (net : Net) (i : Nat) (calls : List (Nat × Option Nat)) :
    (∃ d', genSeq net i calls (initDyn net) = (none, d') ∧
      coversExactly (d' i).outputs.delayed_outputs ((d' i).generate_index) = true) ∧
    (∀ (c : DelayedOutputCache) (o : DelayedOutput),
      c.length ≠ o.key_sl.start →
      c.append o = (some "Appending a non matching slice", c)) := by
  constructor
  · obtain ⟨d', hseq, -, hcov⟩ := genSeq_inv net i calls (initDyn net) rfl rfl
    exact ⟨d', hseq, hcov⟩
  · intro c o h
    simp [DelayedOutputCache.append, h]

/-- Witness for C1: a constant node, `generate(3, batch_size=2)` then
`generate(2)`, and a mismatched append rejected without mutation. -/
theorem claim_C1_witness :
    (∃ d', genSeq constNet 0 [(3, some 2), (2, none)] (initDyn constNet) = (none, d') ∧
      coversExactly (d' 0).outputs.delayed_outputs ((d' 0).generate_index) = true) ∧
    (DelayedOutputCache.mk [] [] none ⟨"t", "n", 0⟩).append
        ⟨⟨"t", "n", 0⟩, ⟨3, 5⟩, false, .ok ⟨.arr []⟩⟩ =
      (some "Appending a non matching slice",
        DelayedOutputCache.mk [] [] none ⟨"t", "n", 0⟩) :=
  ⟨(claim_C1 constNet 0 [(3, some 2), (2, none)]).1,
   (claim_C1 constNet 0 [(3, some 2), (2, none)]).2 _ _ (by decide)⟩

/-- Claim C2: two `get_slice` calls with the same slice and no intervening
`generate`/`reset` return the identical realized data and leave the state
of the second call exactly as after the first (no new chunk, no recompute);
when the slice's upper bound is within the cached length the call is a pure
read: state unchanged, result assembled from the existing chunks. -/
theorem claim_C2 (net : Net) (i : Nat) (sl : Sl) (wv : Option WV) (d : Dyn) :
    ∃ r d', Operation.get_slice net i sl wv d = (.ok r, d') ∧
      Operation.get_slice net i sl wv d' = (.ok r, d') ∧
      (sl.stop ≤ (d i).outputs.length →
        d' = d ∧ r = (d i).outputs.getItem sl) := by
  obtain ⟨r, d', heq, hfr, hpre, hext, hnoop, hlen, hr⟩ :=
    get_sliceF_ok net (i + 1) i (Nat.lt_succ_self i) sl wv d
  refine ⟨r, d', heq, ?_, ?_⟩
  · have hcov : ¬ (d' i).outputs.length < sl.stop := by rw [hlen]; omega
    rw [Operation.get_slice, get_sliceF_covered net i i sl wv d' hcov, hr]
  · intro hstop
    have hno : ¬ (d i).outputs.length < sl.stop := by omega
    have hdd := hnoop hno
    subst hdd
    exact ⟨rfl, hr⟩

/-- Witness for C2: a constant node with five cached samples re-read over
`[1, 4)`. -/
theorem claim_C2_witness :
    ∃ r d', Operation.get_slice constNet 0 ⟨1, 4⟩ none
        ((Operation.acquire constNet 0 5 0 (some 2) (initDyn constNet)).2) = (.ok r, d') ∧
      Operation.get_slice constNet 0 ⟨1, 4⟩ none d' = (.ok r, d') ∧
      ((⟨1, 4⟩ : Sl).stop ≤
          ((Operation.acquire constNet 0 5 0 (some 2) (initDyn constNet)).2
            0).outputs.length →
        d' = (Operation.acquire constNet 0 5 0 (some 2) (initDyn constNet)).2 ∧
        r = ((Operation.acquire constNet 0 5 0 (some 2) (initDyn constNet)).2
            0).outputs.getItem ⟨1, 4⟩) :=
  claim_C2 constNet 0 ⟨1, 4⟩ none _

/-- Claim C10: `get_slice` never modifies any node's generated-length
counter or version, even when it appends a new chunk; a subsequent
`generate(n)` advances the generated length from the old index to
`old + n`, returning exactly that slice, and leaves every version
unchanged. -/
theorem claim_C10 (net : Net) (i : Nat) (sl : Sl) (wv : Option WV) (d : Dyn)
    (hinv : (d i).generate_index ≤ (d i).outputs.length) :
    ∃ r d', Operation.get_slice net i sl wv d = (.ok r, d') ∧
      (∀ j, (d' j).generate_index = (d j).generate_index ∧
            (d' j).num_resets = (d j).num_resets) ∧
      ∀ (n : Nat) (bs : Option Nat), ∃ r2 d2,
        Operation.generate net i n bs none d' = (.ok r2, d2) ∧
        (d2 i).generate_index = (d i).generate_index + n ∧
        (∀ j, (d2 j).num_resets = (d j).num_resets) ∧
        r2 = (d2 i).outputs.getItem ⟨(d i).generate_index, (d i).generate_index + n⟩ := by
  obtain ⟨r, d', heq, hfr, hpre, hext, hnoop, hlen, hr⟩ :=
    get_sliceF_ok net (i + 1) i (Nat.lt_succ_self i) sl wv d
  refine ⟨r, d', heq, hpre, ?_⟩
  intro n bs
  have hinv' : (d' i).generate_index ≤ (d' i).outputs.length := by
    have := (hpre i).1
    omega
  obtain ⟨r2, d2, os, hgen, hgi, -, hver, -, -, -, -, hr2⟩ :=
    generate_ok net i n bs none d' hinv'
  refine ⟨r2, d2, hgen, ?_, ?_, ?_⟩
  · rw [hgi, (hpre i).1]
  · intro j; rw [hver j, (hpre j).2]
  · rw [hr2, (hpre i).1]

/-- Witness for C10: a constant node where `get_slice` first extends the
cache past the generated length, then `generate(2)` still counts from 0. -/
theorem claim_C10_witness :
    ∃ r d', Operation.get_slice constNet 0 ⟨0, 3⟩ none (initDyn constNet) = (.ok r, d') ∧
      (∀ j, (d' j).generate_index = ((initDyn constNet) j).generate_index ∧
            (d' j).num_resets = ((initDyn constNet) j).num_resets) ∧
      ∀ (n : Nat) (bs : Option Nat), ∃ r2 d2,
        Operation.generate constNet 0 n bs none d' = (.ok r2, d2) ∧
        (d2 0).generate_index = ((initDyn constNet) 0).generate_index + n ∧
        (∀ j, (d2 j).num_resets = ((initDyn constNet) j).num_resets) ∧
        r2 = (d2 0).outputs.getItem
          ⟨((initDyn constNet) 0).generate_index,
           ((initDyn constNet) 0).generate_index + n⟩ :=
  claim_C10 constNet 0 ⟨0, 3⟩ none (initDyn constNet) (Nat.le_refl 0)

/-- Counterexample to C5 as stated: on `Constant("c", 3)`,
`acquire(5, batch_size=2)` realizes to an array with three rows (one per
chunk, since the constant operation returns its single normalized row
regardless of the requested `n`), not five. -/
theorem claim_C5_counterexample :
    (Operation.acquire constNet 0 5 0 (some 2) (initDyn constNet)).1 =
      .ok (.ok (.arr [.arr [.atom 3], .arr [.atom 3], .arr [.atom 3]])) ∧
    (ND.arr [.arr [.atom 3], .arr [.atom 3], .arr [.atom 3]]).len = 3 ∧
    (ND.arr [.arr [.atom 3], .arr [.atom 3], .arr [.atom 3]]).len ≠ 5 :=
  ⟨rfl, rfl, by decide⟩

/-- Claim C5 (amended): on `Constant("c", 3)` with `batch_size = 2`,
`acquire(5)` extends the cache by exactly three chunks covering
`[0,2), [2,4), [4,5)` in that order; every chunk's realized output is the
constant's single normalized row `[[3]]` (the value is not broadcast to the
batch size), so the returned array has three rows all equal to 3, and the
generated length becomes 5. -/
theorem claim_C5_amended :
    (Operation.acquire constNet 0 5 0 (some 2) (initDyn constNet)).1 =
      .ok (.ok (.arr [.arr [.atom 3], .arr [.atom 3], .arr [.atom 3]])) ∧
    ((Operation.acquire constNet 0 5 0 (some 2) (initDyn constNet)).2
        0).outputs.delayed_outputs.map (fun o => o.key_sl) =
      [⟨0, 2⟩, ⟨2, 4⟩, ⟨4, 5⟩] ∧
    (∀ o ∈ ((Operation.acquire constNet 0 5 0 (some 2) (initDyn constNet)).2
        0).outputs.delayed_outputs, o.out = .ok ⟨.arr [.arr [.atom 3]]⟩) ∧
    ((Operation.acquire constNet 0 5 0 (some 2) (initDyn constNet)).2
        0).generate_index = 5 := by
  refine ⟨rfl, rfl, ?_, rfl⟩
  intro o ho
  have hlist : ((Operation.acquire constNet 0 5 0 (some 2) (initDyn constNet)).2
      0).outputs.delayed_outputs =
      [⟨⟨"task", "c", 0⟩, ⟨0, 2⟩, false, .ok ⟨.arr [.arr [.atom 3]]⟩⟩,
       ⟨⟨"task", "c", 0⟩, ⟨2, 4⟩, false, .ok ⟨.arr [.arr [.atom 3]]⟩⟩,
       ⟨⟨"task", "c", 0⟩, ⟨4, 5⟩, false, .ok ⟨.arr [.arr [.atom 3]]⟩⟩] := rfl
  rw [hlist] at ho
  simp only [List.mem_cons, List.not_mem_nil, or_false] at ho
  rcases ho with rfl | rfl | rfl
  · rfl
  · rfl
  · rfl

/-- Counterexample to C6 as stated: a simulator node whose user function
returns a 1-D array.  `get_slice` over `[0, 2)` appends the delayed chunk
to the cache before anything is computed (so the cache no longer covers
exactly the previously generated range `[0, 0)`); the shape-contract error
only surfaces in the realized value. -/
theorem claim_C6_counterexample :
    ((Operation.get_slice exNetC6 0 ⟨0, 2⟩ none (initDyn exNetC6)).2
        0).outputs.delayed_outputs.length = 1 ∧
    ((Operation.get_slice exNetC6 0 ⟨0, 2⟩ none (initDyn exNetC6)).2
        0).outputs.length = 2 ∧
    ((initDyn exNetC6) 0).outputs.length = 0 ∧
    (Operation.get_slice exNetC6 0 ⟨0, 2⟩ none (initDyn exNetC6)).1 =
      .ok (.error "Simulation operation output format incorrect.") :=
  ⟨rfl, rfl, rfl, rfl⟩

theorem simulator_operation_bad (sim : List ND → Nat → ND) (input : InputDict)
    (h : simShapeBad (sim input.data input.n) input.n) :
    ∃ msg, simulator_operation sim input = .error msg ∧ shapeContractMsg msg := by
  simp only [simulator_operation]
  rcases hsim : sim input.data input.n with v | rows
  · exact ⟨_, rfl, Or.inl rfl⟩
  · have hb : rows.length ≠ input.n ∨ (ND.arr rows).ndim < 2 := by
      have h2 := h
      rw [hsim] at h2
      exact h2
    dsimp only
    rw [if_pos hb]
    exact ⟨_, rfl, Or.inr (Or.inl rfl)⟩

theorem summary_operation_bad (su : List ND → ND) (input : InputDict)
    (h : simShapeBad (su input.data) input.n) :
    ∃ msg, summary_operation su input = .error msg ∧ shapeContractMsg msg := by
  simp only [summary_operation]
  rcases hsu : su input.data with v | rows
  · exact ⟨_, rfl, Or.inr (Or.inr (Or.inl rfl))⟩
  · have hb : rows.length ≠ input.n ∨ (ND.arr rows).ndim < 2 := by
      have h2 := h
      rw [hsu] at h2
      exact h2
    dsimp only
    rw [if_pos hb]
    exact ⟨_, rfl, Or.inr (Or.inr (Or.inr (Or.inl rfl)))⟩

theorem isShapeN1_false_of_bad (data : ND) (n : Nat) (hn : 0 < n)
    (h : simShapeBad data n) : data.isShapeN1 n = false := by
  match data with
  | .atom v => rfl
  | .arr rows =>
    simp only [simShapeBad] at h
    rcases h with h | h
    · simp only [ND.isShapeN1, Bool.and_eq_false_iff]
      exact Or.inl (by simp [h])
    · match rows with
      | [] =>
        simp only [ND.isShapeN1, Bool.and_eq_false_iff]
        exact Or.inl (by simp; omega)
      | (x :: rest) =>
        simp only [ND.ndim] at h
        match x with
        | .atom v =>
          simp only [ND.isShapeN1, List.all_cons, Bool.and_eq_false_iff]
          exact Or.inr (Or.inl trivial)
        | .arr l =>
          exfalso
          match l with
          | [] => simp [ND.ndim] at h
          | (y :: t) => simp [ND.ndim] at h; omega

theorem discrepancy_operation_bad (dc : List ND → List ND → ND) (obs : List ND)
    (input : InputDict) (hn : 0 < input.n)
    (h : simShapeBad (dc input.data obs) input.n) :
    ∃ msg, discrepancy_operation dc obs input = .error msg ∧ shapeContractMsg msg := by
  simp only [discrepancy_operation]
  rcases hd : dc input.data obs with v | rows
  · exact ⟨_, rfl, Or.inr (Or.inr (Or.inr (Or.inr (Or.inl rfl))))⟩
  · rw [hd] at h
    have hb : (ND.arr rows).isShapeN1 input.n = false :=
      isShapeN1_false_of_bad _ _ hn h
    have hcond : ¬ ((ND.arr rows).isShapeN1 input.n = true) := by
      rw [hb]; exact Bool.false_ne_true
    dsimp only
    rw [if_pos hcond]
    exact ⟨_, rfl, Or.inr (Or.inr (Or.inr (Or.inr (Or.inr rfl))))⟩

/-- Claim C6 (amended): when a simulator, summary, or discrepancy
operation's user function violates the shape contract on every batch, the
chunk built by `get_slice` is still appended to the cache (extending the
covered range to the requested stop); its realized value is an error —
the wrapper's shape-contract error whenever the parents' embedded inputs
realize successfully, a propagated parent error otherwise — and realizing
the same slice again returns the same cache state deterministically (no
retry, nothing further appended). -/
theorem claim_C6_amended (net : Net) (i : Nat) (sl : Sl) (d : Dyn)
    (hop : (∃ sim, net.op i = simulator_operation sim ∧
              ∀ ds k, simShapeBad (sim ds k) k) ∨
           (∃ su, net.op i = summary_operation su ∧
              ∀ ds k, simShapeBad (su ds) k) ∨
           (∃ dc obs, net.op i = discrepancy_operation dc obs ∧
              ∀ ds k, simShapeBad (dc ds obs) k))
    (hlen : (d i).outputs.length < sl.stop) :
    ∃ o d' pdatas,
      Operation.get_slice net i sl none d = (.ok ((d' i).outputs.getItem sl), d') ∧
      o.isLiteral = false ∧
      o.key_sl = ⟨(d i).outputs.length, sl.stop⟩ ∧
      (d' i).outputs.delayed_outputs = (d i).outputs.delayed_outputs ++ [o] ∧
      (d' i).outputs.length = sl.stop ∧
      o = gsChunk net i ⟨(d i).outputs.length, sl.stop⟩ none
        (d i).num_resets pdatas ∧
      (∃ msg, o.out = Except.error msg) ∧
      (∀ ds, pdatas.mapM id = Except.ok ds →
        ∃ msg, o.out = Except.error msg ∧ shapeContractMsg msg) ∧
      Operation.get_slice net i sl none d' =
        (.ok ((d' i).outputs.getItem sl), d') := by
  obtain ⟨r, d', heq, hfr, hpre, hext, hnoop, hlenmax, hr⟩ :=
    get_sliceF_ok net (i + 1) i (Nat.lt_succ_self i) sl none d
  obtain ⟨o, hokey, hochunks, pdatas, hchunk⟩ := hext hlen
  have hwvn : normalize_data_dict none (sl.stop - (d i).outputs.length) = none := rfl
  rw [hwvn] at hchunk
  have hout : o.out = (pdatas.mapM id).bind
      (fun ds => net.op i ⟨ds, slen ⟨(d i).outputs.length, sl.stop⟩,
        (d i).outputs.length⟩) := by
    rw [hchunk]
    rfl
  have hopbad : ∀ ds : List ND, ∃ msg,
      net.op i ⟨ds, slen ⟨(d i).outputs.length, sl.stop⟩,
        (d i).outputs.length⟩ = .error msg ∧ shapeContractMsg msg := by
    intro ds
    have hn : 0 < slen ⟨(d i).outputs.length, sl.stop⟩ := by
      show 0 < sl.stop - (d i).outputs.length
      omega
    rcases hop with ⟨sim, hopi, hbad⟩ | ⟨su, hopi, hbad⟩ | ⟨dc, obs, hopi, hbad⟩
    · rw [hopi]
      exact simulator_operation_bad sim _ (hbad _ _)
    · rw [hopi]
      exact summary_operation_bad su _ (hbad _ _)
    · rw [hopi]
      exact discrepancy_operation_bad dc obs _ hn (hbad _ _)
  have herr : ∃ msg, o.out = Except.error msg := by
    rcases hm : pdatas.mapM id with e | ds
    · refine ⟨e, ?_⟩
      rw [hout, hm]
      rfl
    · obtain ⟨msg, hmsg, -⟩ := hopbad ds
      refine ⟨msg, ?_⟩
      rw [hout, hm]
      exact hmsg
  have hcond : ∀ ds, pdatas.mapM id = Except.ok ds →
      ∃ msg, o.out = Except.error msg ∧ shapeContractMsg msg := by
    intro ds hds
    obtain ⟨msg, hmsg, hid⟩ := hopbad ds
    refine ⟨msg, ?_, hid⟩
    rw [hout, hds]
    exact hmsg
  have hlen' : (d' i).outputs.length = sl.stop := by
    rw [hlenmax]
    omega
  have hlit : o.isLiteral = false := by
    rw [hchunk]
    rfl
  have hfst : Operation.get_slice net i sl none d =
      (.ok ((d' i).outputs.getItem sl), d') := by
    rw [Operation.get_slice, heq, hr]
  have hagain : Operation.get_slice net i sl none d' =
      (.ok ((d' i).outputs.getItem sl), d') := by
    rw [Operation.get_slice]
    apply get_sliceF_covered
    rw [hlen']
    omega
  exact ⟨o, d', pdatas, hfst, hlit, hokey, hochunks, hlen', hchunk, herr,
    hcond, hagain⟩

/-- Witness for the amended C6: the concrete one-node simulator net whose
function always returns the 1-D array `[1]`. -/
theorem claim_C6_amended_witness :
    ∃ o d' pdatas,
      Operation.get_slice exNetC6 0 ⟨0, 2⟩ none (initDyn exNetC6) =
        (.ok ((d' 0).outputs.getItem ⟨0, 2⟩), d') ∧
      o.isLiteral = false ∧
      o.key_sl = ⟨((initDyn exNetC6) 0).outputs.length, (⟨0, 2⟩ : Sl).stop⟩ ∧
      (d' 0).outputs.delayed_outputs =
        ((initDyn exNetC6) 0).outputs.delayed_outputs ++ [o] ∧
      (d' 0).outputs.length = (⟨0, 2⟩ : Sl).stop ∧
      o = gsChunk exNetC6 0
        ⟨((initDyn exNetC6) 0).outputs.length, (⟨0, 2⟩ : Sl).stop⟩ none
        ((initDyn exNetC6) 0).num_resets pdatas ∧
      (∃ msg, o.out = Except.error msg) ∧
      (∀ ds, pdatas.mapM id = Except.ok ds →
        ∃ msg, o.out = Except.error msg ∧ shapeContractMsg msg) ∧
      Operation.get_slice exNetC6 0 ⟨0, 2⟩ none d' =
        (.ok ((d' 0).outputs.getItem ⟨0, 2⟩), d') :=
  claim_C6_amended exNetC6 0 ⟨0, 2⟩ (initDyn exNetC6)
    (Or.inl ⟨fun _ _ => .arr [.atom 1], rfl, fun _ _ => Or.inr (by decide)⟩)
    (by decide)

/-!  Reset. -/

theorem resetNodeSt_iterate_spec (net : Net) (j : Nat) (s : OpDyn) :
    ∀ k, 1 ≤ k →
    ((resetNodeSt net j)^[k] s).generate_index = 0 ∧
    ((resetNodeSt net j)^[k] s).num_resets = s.num_resets + k ∧
    ((resetNodeSt net j)^[k] s).outputs.delayed_outputs = [] ∧
    ((resetNodeSt net j)^[k] s).outputs.node_id = nodeIdOf net j (s.num_resets + k) ∧
    (∀ st', ((resetNodeSt net j)^[k] s).outputs.store = some st' →
      ∀ e ∈ st'.entries, e.1 ≠ s.outputs.node_id) := by
  intro k
  induction k with
  | zero => intro h; omega
  | succ k ihk =>
    intro _
    rcases Nat.eq_zero_or_pos k with hk | hk
    · subst hk
      refine ⟨rfl, rfl, rfl, rfl, ?_⟩
      intro st' hst' e he
      have hst2 : Option.map (fun s0 => s0.resetStore s.outputs.node_id)
          s.outputs.store = some st' := hst'
      rcases hs : s.outputs.store with _ | s0
      · rw [hs] at hst2; exact absurd hst2 (by simp)
      · rw [hs] at hst2
        have hst3 : some (s0.resetStore s.outputs.node_id) = some st' := hst2
        have hst4 := Option.some.inj hst3
        rw [← hst4] at he
        simp only [StoreSt.resetStore, List.mem_filter, decide_eq_true_eq] at he
        exact he.2
    · have spec := ihk hk
      rw [Function.iterate_succ_apply']
      refine ⟨rfl, ?_, rfl, ?_, ?_⟩
      · show ((resetNodeSt net j)^[k] s).num_resets + 1 = s.num_resets + (k + 1)
        omega
      · show nodeIdOf net j (((resetNodeSt net j)^[k] s).num_resets + 1) = _
        rw [spec.2.1]
        exact rfl
      · intro st' hst' e he
        have hst2 : Option.map
            (fun s0 => s0.resetStore ((resetNodeSt net j)^[k] s).outputs.node_id)
            ((resetNodeSt net j)^[k] s).outputs.store = some st' := hst'
        rcases hs : ((resetNodeSt net j)^[k] s).outputs.store with _ | s0
        · rw [hs] at hst2; exact absurd hst2 (by simp)
        · rw [hs] at hst2
          have hst3 : some (s0.resetStore ((resetNodeSt net j)^[k] s).outputs.node_id)
              = some st' := hst2
          have hst4 := Option.some.inj hst3
          rw [← hst4] at he
          simp only [StoreSt.resetStore, List.mem_filter, decide_eq_true_eq] at he
          exact spec.2.2.2.2 s0 hs e he.1

theorem DescC_inv (net : Net) (i j : Nat) (h : DescC net i j) :
    ∃ c ∈ net.children i, j = c ∨ DescC net c j := by
  cases h with
  | child hc => exact ⟨j, hc, Or.inl rfl⟩
  | trans hc hd => exact ⟨_, hc, Or.inr hd⟩

theorem resetF_char (net : Net) :
    ∀ (fuel i : Nat) (p : Bool) (d : Dyn) (j : Nat),
    ∃ k, (resetF net fuel i p d) j = (resetNodeSt net j)^[k] (d j) ∧
      (p = true → net.sz - i < fuel → (j = i ∨ DescC net i j) → 1 ≤ k) := by
  intro fuel
  induction fuel with
  | zero =>
    intro i p d j
    exact ⟨0, rfl, fun _ h => by omega⟩
  | succ fuel ih =>
    intro i p d j
    have hfold : ∀ (cs : List Nat), (∀ c ∈ cs, i < c ∧ c < net.sz) →
        ∀ (d0 : Dyn),
        ∃ k, (cs.foldl (fun dd c => resetF net fuel c true dd) d0) j =
          (resetNodeSt net j)^[k] (d0 j) ∧
          (net.sz - i < fuel + 1 → (∃ c ∈ cs, j = c ∨ DescC net c j) → 1 ≤ k) := by
      intro cs
      induction cs with
      | nil =>
        intro _ d0
        exact ⟨0, rfl, fun _ h => by simp at h⟩
      | cons c cs ihc =>
        intro hcs d0
        have hc := hcs c (List.mem_cons_self c cs)
        obtain ⟨k1, heq1, hcl1⟩ := ih c true d0 j
        obtain ⟨k2, heq2, hcl2⟩ :=
          ihc (fun q hq => hcs q (List.mem_cons_of_mem c hq)) (resetF net fuel c true d0)
        refine ⟨k1 + k2, ?_, ?_⟩
        · simp only [List.foldl_cons]
          rw [heq2, heq1, Nat.add_comm k1 k2, Function.iterate_add_apply]
        · intro hsz hex
          obtain ⟨c', hc', hj⟩ := hex
          rcases List.mem_cons.mp hc' with rfl | hmem
          · have h1 : 1 ≤ k1 := hcl1 rfl (by omega) hj
            omega
          · have h2 : 1 ≤ k2 := hcl2 hsz ⟨c', hmem, hj⟩
            omega
    cases p with
    | false =>
      have hre : resetF net (fuel + 1) i false d = updateDyn d i (resetNodeSt net i) := rfl
      rw [hre]
      by_cases hj : j = i
      · subst hj
        refine ⟨1, ?_, fun h => by simp at h⟩
        rw [updateDyn, if_pos rfl, Function.iterate_one]
      · refine ⟨0, ?_, fun h => by simp at h⟩
        rw [updateDyn, if_neg hj, Function.iterate_zero_apply]
    | true =>
      obtain ⟨k1, heq1, hcl1⟩ := hfold (net.children i) (net.hchild i) d
      have hre : resetF net (fuel + 1) i true d =
          updateDyn ((net.children i).foldl (fun dd c => resetF net fuel c true dd) d) i
            (resetNodeSt net i) := rfl
      rw [hre]
      by_cases hj : j = i
      · subst hj
        refine ⟨k1 + 1, ?_, fun _ _ _ => by omega⟩
        rw [updateDyn, if_pos rfl, Function.iterate_succ_apply', heq1]
      · refine ⟨k1, ?_, ?_⟩
        · rw [updateDyn, if_neg hj, heq1]
        · intro _ hsz hd
          rcases hd with rfl | hd
          · exact absurd rfl hj
          · obtain ⟨c, hc, hjc⟩ := DescC_inv net i j hd
            exact hcl1 hsz ⟨c, hc, hjc⟩

/-- Claim C3: after `reset(propagate=True)` on a node, the node and every
descendant have generated length 0, a strictly larger version counter, an
empty output cache rebound to the fresh identity derived from the new
version, and a backing store (when configured) purged of every entry for
the node's old identity. -/
theorem claim_C3 (net : Net) (i : Nat) (d : Dyn) (j : Nat)
    (hj : j = i ∨ DescC net i j) :
    ((Operation.reset net i true d) j).generate_index = 0 ∧
    (d j).num_resets < ((Operation.reset net i true d) j).num_resets ∧
    ((Operation.reset net i true d) j).outputs.delayed_outputs = [] ∧
    ((Operation.reset net i true d) j).outputs.node_id =
      nodeIdOf net j (((Operation.reset net i true d) j).num_resets) ∧
    (∀ st', ((Operation.reset net i true d) j).outputs.store = some st' →
      ∀ e ∈ st'.entries, e.1 ≠ (d j).outputs.node_id) := by
  obtain ⟨k, heq, hcl⟩ := resetF_char net (net.sz + 1) i true d j
  have hk : 1 ≤ k := hcl rfl (by omega) hj
  have spec := resetNodeSt_iterate_spec net j (d j) k hk
  rw [Operation.reset, heq]
  refine ⟨spec.1, ?_, spec.2.2.1, ?_, spec.2.2.2.2⟩
  · rw [spec.2.1]; omega
  · rw [spec.2.2.2.1, spec.2.1]

/-- Witness for C3: resetting the parent of the two-node store-backed net
resets its descendant as well. -/
theorem claim_C3_witness :
    ((Operation.reset exNetC3 0 true (initDyn exNetC3)) 1).generate_index = 0 ∧
    ((initDyn exNetC3) 1).num_resets <
      ((Operation.reset exNetC3 0 true (initDyn exNetC3)) 1).num_resets ∧
    ((Operation.reset exNetC3 0 true (initDyn exNetC3)) 1).outputs.delayed_outputs = [] ∧
    ((Operation.reset exNetC3 0 true (initDyn exNetC3)) 1).outputs.node_id =
      nodeIdOf exNetC3 1 (((Operation.reset exNetC3 0 true (initDyn exNetC3)) 1).num_resets) ∧
    (∀ st', ((Operation.reset exNetC3 0 true (initDyn exNetC3)) 1).outputs.store = some st' →
      ∀ e ∈ st'.entries, e.1 ≠ ((initDyn exNetC3) 1).outputs.node_id) :=
  claim_C3 exNetC3 0 (initDyn exNetC3) 1
    (Or.inr (DescC.child (by decide)))

/-!  Facts about `normalize_data` needed for override correctness. -/

theorem ND.ndim_arr_pos (l : List ND) : 1 ≤ (ND.arr l).ndim := by
  cases l with
  | nil => simp [ND.ndim]
  | cons x xs => simp [ND.ndim]

theorem atleast_1d_arr (v : ND) : ∃ l, atleast_1d v = .arr l := by
  cases v with
  | atom x => exact ⟨[.atom x], rfl⟩
  | arr l => exact ⟨l, rfl⟩

theorem normalize_data_is_arr (v : ND) (n : Nat) :
    ∃ l, normalize_data v n = .arr l := by
  obtain ⟨l, hl⟩ := atleast_1d_arr v
  simp only [normalize_data]
  rw [hl]
  split_ifs <;> exact ⟨_, rfl⟩

theorem normalize_data_rows_length (v : ND) (n : Nat) (hn : 1 ≤ n) :
    (normalize_data v n).rows.length = n := by
  obtain ⟨l, hl⟩ := atleast_1d_arr v
  simp only [normalize_data]
  rw [hl]
  split_ifs with h1 h2 h3 h4 h5
  · simp only [ND.rows, List.length_map]
    simpa [ND.len, ND.rows] using h2
  · simp [ND.rows]
  · simp only [ND.rows, List.length_cons, List.length_nil]
    omega
  · simp [ND.rows]
  · simp only [ND.rows, List.length_cons, List.length_nil]
    omega
  · simp only [ND.len, not_not] at h4
    exact h4

theorem normalize_data_ndim_ne_one (v : ND) (n : Nat) (hn : 1 ≤ n) :
    (normalize_data v n).ndim ≠ 1 := by
  obtain ⟨l, hl⟩ := atleast_1d_arr v
  have hpos := ND.ndim_arr_pos l
  simp only [normalize_data]
  rw [hl]
  split_ifs with h1 h2 h3 h4 h5
  · have hlen : l.length = n := by simpa [ND.len, ND.rows] using h2
    cases l with
    | nil => simp at hlen; omega
    | cons x xs => simp [ND.ndim]
  · cases n with
    | zero => omega
    | succ m => simp only [List.replicate, ND.ndim]; omega
  · simp only [ND.ndim]; omega
  · cases n with
    | zero => omega
    | succ m => simp only [List.replicate, ND.ndim]; omega
  · simp only [ND.ndim]; omega
  · exact h1

theorem normalize_data_fix (w : ND) (n : Nat) (l : List ND) (hw : w = .arr l)
    (hndim : w.ndim ≠ 1) (hlen : w.rows.length = n) : normalize_data w n = w := by
  subst hw
  simp only [normalize_data, atleast_1d]
  rw [if_neg hndim, if_neg (by simpa [ND.len, ND.rows] using hlen)]

theorem rowSlice_all (w : ND) (n : Nat) (l : List ND) (hw : w = .arr l)
    (hlen : w.rows.length = n) : w.rowSlice ⟨0, n⟩ = w := by
  subst hw
  simp only [ND.rowSlice, ND.rows, slen, List.drop_zero] at hlen ⊢
  rw [Nat.sub_zero, List.take_of_length_le (le_of_eq hlen)]

theorem normalize_data_idem_chain (V : ND) (n : Nat) (hn : 1 ≤ n) :
    normalize_data (normalize_data ((normalize_data V n).rowSlice ⟨0, n⟩) n) n
      = normalize_data V n := by
  obtain ⟨l, hl⟩ := normalize_data_is_arr V n
  have hlen := normalize_data_rows_length V n hn
  have hndim := normalize_data_ndim_ne_one V n hn
  rw [rowSlice_all (normalize_data V n) n l hl hlen]
  rw [normalize_data_fix (normalize_data V n) n l hl hndim hlen]
  rw [normalize_data_fix (normalize_data V n) n l hl hndim hlen]

theorem wvLookup_map (l : WV) (g : ND → ND) (k : String) :
    wvLookup (some (List.map (fun kv => (kv.1, g kv.2)) l)) k =
      (wvLookup (some l) k).map g := by
  simp only [wvLookup]
  induction l with
  | nil => rfl
  | cons kv l ih =>
    simp only [List.map_cons, List.find?]
    by_cases hk : kv.1 = k
    · simp [hk]
    · have hd : (decide (kv.1 = k)) = false := by simp [hk]
      rw [hd]
      exact ih

/-!  Reading a single full chunk. -/

theorem slice_intersect_self (sl : Sl) : slice_intersect sl sl 0 = sl := by
  simp [slice_intersect]

theorem getItem_single (c : DelayedOutputCache) (o : DelayedOutput) (sl : Sl)
    (hc : c.delayed_outputs = [o]) (hm : c.stored_mask = [false])
    (ho : o.key_sl = sl) (hpos : 1 ≤ slen sl) :
    c.getItem sl = o.out.map (fun od => od.data) := by
  have hlist : c.get_output_datalist sl = [o.out.map (fun od => od.data)] := by
    simp only [DelayedOutputCache.get_output_datalist, hc, hm]
    simp only [List.zip_cons_cons, List.zip_nil_right, List.filterMap]
    rw [ho, slice_intersect_self]
    rw [if_neg (by omega)]
    simp only [Bool.false_eq_true, if_false]
    rw [if_neg (by simp)]
  rw [DelayedOutputCache.getItem, hlist]

theorem gsChunk_literal (net : Net) (i : Nat) (nsl : Sl) (wvn : Option WV) (ver : Nat)
    (v : ND) (h : wvLookup wvn (net.name i) = some v) :
    gsChunk net i nsl wvn ver [] = ⟨nodeIdOf net i ver, nsl, true, .ok ⟨v⟩⟩ := by
  simp only [gsChunk, h]
  rfl

theorem gsChunk_op (net : Net) (i : Nat) (nsl : Sl) (wvn : Option WV) (ver : Nat)
    (h : wvLookup wvn (net.name i) = none) :
    gsChunk net i nsl wvn ver [] =
      ⟨nodeIdOf net i ver, nsl, false, net.op i ⟨[], slen nsl, nsl.start⟩⟩ := by
  simp only [gsChunk, h]
  rfl

theorem get_sliceF_succ (fuel : Nat) (net : Net) (i : Nat) (sl : Sl) (wv : Option WV)
    (d : Dyn) :
    get_sliceF (fuel + 1) net i sl wv d =
      if (d i).outputs.length < sl.stop then
        match (net.parents i).foldl
            (fun (acc : (Except String (List (Except String ND))) × Dyn) (p : Nat) =>
              match acc with
              | (.error e, d0) => (.error e, d0)
              | (.ok rs, d0) =>
                match get_sliceF fuel net p ⟨(d i).outputs.length, sl.stop⟩
                    (normalize_data_dict wv (sl.stop - (d i).outputs.length)) d0 with
                | (.error e, d1) => (.error e, d1)
                | (.ok r, d1) => (.ok (rs ++ [r]), d1)) (.ok [], d) with
        | (.error e, d1) => (.error e, d1)
        | (.ok pdatas, d1) =>
          match (d1 i).outputs.append
              (gsChunk net i ⟨(d i).outputs.length, sl.stop⟩
                (normalize_data_dict wv (sl.stop - (d i).outputs.length))
                ((d1 i).num_resets) pdatas) with
          | (some e, _) => (.error e, d1)
          | (none, c2) =>
            (.ok (((updateDyn d1 i (fun s => { s with outputs := c2 })) i).outputs.getItem sl),
              updateDyn d1 i (fun s => { s with outputs := c2 }))
      else (.ok ((d i).outputs.getItem sl), d) := rfl

theorem gs_fold_roots (net : Net) (f n : Nat) (hn : 1 ≤ n) (wvq : Option WV) :
    ∀ (ps : List Nat), (∀ p ∈ ps, net.parents p = []) →
    ∀ (d0 : Dyn) (rs0 : List (Except String ND)),
    (∀ p ∈ ps, d0 p = initDyn net p ∨ d0 p = rootCanonSt net p n wvq) →
    ∃ rs1 d1,
      List.foldl (fun (acc : (Except String (List (Except String ND))) × Dyn) (p : Nat) =>
        match acc with
        | (.error e, d0) => (.error e, d0)
        | (.ok rs, d0) =>
          match get_sliceF (f + 1) net p ⟨0, n⟩ wvq d0 with
          | (.error e, d1) => (.error e, d1)
          | (.ok r, d1) => (.ok (rs ++ [r]), d1)) (.ok rs0, d0) ps = (.ok rs1, d1) ∧
      (∀ p ∈ ps, d1 p = rootCanonSt net p n wvq) ∧
      (∀ j, (∀ p ∈ ps, j ≠ p) → d1 j = d0 j) := by
  intro ps
  induction ps with
  | nil =>
    intro _ d0 rs0 _
    exact ⟨rs0, d0, rfl, fun p hp => absurd hp (List.not_mem_nil p), fun _ _ => rfl⟩
  | cons p ps ihp =>
    intro hps d0 rs0 hd0
    have hproot : net.parents p = [] := hps p (List.mem_cons_self p ps)
    have hstep : ∃ r dp, get_sliceF (f + 1) net p ⟨0, n⟩ wvq d0 = (.ok r, dp) ∧
        dp p = rootCanonSt net p n wvq ∧ (∀ j, j ≠ p → dp j = d0 j) := by
      rcases hd0 p (List.mem_cons_self p ps) with hinit | hcanon
      · have hlen : (d0 p).outputs.length < (⟨0, n⟩ : Sl).stop := by
          rw [hinit]
          show (0 : Nat) < n
          omega
        refine ⟨_, _, get_sliceF_root_extend net f p ⟨0, n⟩ wvq d0 hproot hlen, ?_, ?_⟩
        · rw [gsRootStep, updateDyn, if_pos rfl, hinit]
          show ({ initDyn net p with outputs := _ } : OpDyn) = _
          rw [rootCanonSt]
          rfl
        · intro j hj
          rw [gsRootStep, updateDyn, if_neg hj]
      · have hlen : ¬ (d0 p).outputs.length < (⟨0, n⟩ : Sl).stop := by
          rw [hcanon]
          show ¬ (rootCanonSt net p n wvq).outputs.length < n
          rw [rootCanonSt]
          show ¬ ((initDyn net p).outputs.snoc _).length < n
          rw [DelayedOutputCache.length_snoc]
          show ¬ 0 + slen ⟨0, n⟩ < n
          rw [slen]
          dsimp only
          omega
        exact ⟨_, d0, get_sliceF_covered net f p ⟨0, n⟩ wvq d0 hlen, hcanon,
          fun _ _ => rfl⟩
    obtain ⟨r, dp, hpeq, hpcanon, hpfr⟩ := hstep
    have hd0' : ∀ q ∈ ps, dp q = initDyn net q ∨ dp q = rootCanonSt net q n wvq := by
      intro q hq
      by_cases hqp : q = p
      · subst hqp
        exact Or.inr hpcanon
      · rw [hpfr q hqp]
        exact hd0 q (List.mem_cons_of_mem p hq)
    obtain ⟨rs1, d1, heq1, hcanon1, hfr1⟩ :=
      ihp (fun q hq => hps q (List.mem_cons_of_mem p hq)) dp (rs0 ++ [r]) hd0'
    refine ⟨rs1, d1, ?_, ?_, ?_⟩
    · simp only [List.foldl_cons, hpeq]
      exact heq1
    · intro q hq
      rcases List.mem_cons.mp hq with rfl | hmem
      · by_cases hqin : q ∈ ps
        · exact hcanon1 q hqin
        · rw [hfr1 q (fun p' hp' => by rintro rfl; exact hqin hp')]
          exact hpcanon
      · exact hcanon1 q hmem
    · intro j hj
      rw [hfr1 j (fun q hq => hj q (List.mem_cons_of_mem p hq)),
        hpfr j (hj p (List.mem_cons_self p ps))]

theorem gs_child_roots (net : Net) (c' n : Nat) (hn : 1 ≤ n) (wvq : Option WV)
    (hroots : ∀ p ∈ net.parents (c' + 1), net.parents p = []) :
    ∃ r dC,
      Operation.get_slice net (c' + 1) ⟨0, n⟩ wvq (initDyn net) = (.ok r, dC) ∧
      (∀ p ∈ net.parents (c' + 1), dC p =
        rootCanonSt net p n (normalize_data_dict wvq n)) ∧
      (dC (c' + 1)).outputs.length = n ∧
      (∀ j, (dC j).generate_index = 0) ∧
      (∀ j, (dC j).num_resets = 0) := by
  have h0 : (initDyn net (c' + 1)).outputs.length = 0 := rfl
  have hstop : (⟨0, n⟩ : Sl).stop = n := rfl
  obtain ⟨rs1, d1, hfold, hcanon, hfr⟩ :=
    gs_fold_roots net c' n hn (normalize_data_dict wvq n) (net.parents (c' + 1)) hroots
      (initDyn net) [] (fun p _ => Or.inl rfl)
  have hd1cn : d1 (c' + 1) = initDyn net (c' + 1) :=
    hfr (c' + 1) (fun p hp => by have := net.hpar (c' + 1) p hp; omega)
  have happ := DelayedOutputCache.append_ok ((d1 (c' + 1)).outputs)
    (gsChunk net (c' + 1) ⟨0, n⟩ (normalize_data_dict wvq n)
      ((d1 (c' + 1)).num_resets) rs1)
    (by rw [hd1cn]; rfl)
  have hnode : ∀ j, (d1 j).generate_index = 0 ∧ (d1 j).num_resets = 0 := by
    intro j
    by_cases hj : j ∈ net.parents (c' + 1)
    · rw [hcanon j hj, rootCanonSt]
      exact ⟨rfl, rfl⟩
    · rw [hfr j (fun p hp => by rintro rfl; exact hj hp)]
      exact ⟨rfl, rfl⟩
  have hmain : Operation.get_slice net (c' + 1) ⟨0, n⟩ wvq (initDyn net) =
      (.ok (((updateDyn d1 (c' + 1) (fun s => { s with outputs :=
          ((d1 (c' + 1)).outputs.snoc (gsChunk net (c' + 1) ⟨0, n⟩
            (normalize_data_dict wvq n) ((d1 (c' + 1)).num_resets) rs1)) }))
          (c' + 1)).outputs.getItem ⟨0, n⟩),
        updateDyn d1 (c' + 1) (fun s => { s with outputs :=
          ((d1 (c' + 1)).outputs.snoc (gsChunk net (c' + 1) ⟨0, n⟩
            (normalize_data_dict wvq n) ((d1 (c' + 1)).num_resets) rs1)) })) := by
    show get_sliceF (c' + 1 + 1) net (c' + 1) ⟨0, n⟩ wvq (initDyn net) = _
    rw [get_sliceF_succ]
    rw [if_pos (by rw [h0, hstop]; omega)]
    simp only [h0, hstop, Nat.sub_zero]
    simp only [hfold]
    simp only [happ]
  refine ⟨_, _, hmain, ?_, ?_, ?_, ?_⟩
  · intro p hp
    have hpne : p ≠ c' + 1 := by have := net.hpar (c' + 1) p hp; omega
    rw [updateDyn, if_neg hpne]
    exact hcanon p hp
  · rw [updateDyn, if_pos rfl]
    show ((d1 (c' + 1)).outputs.snoc _).length = n
    rw [DelayedOutputCache.length_snoc, hd1cn, h0]
    show 0 + slen ⟨0, n⟩ = n
    rw [slen]
    dsimp only
    omega
  · intro j
    by_cases hj : j = c' + 1
    · subst hj
      rw [updateDyn, if_pos rfl]
      exact (hnode _).1
    · rw [updateDyn, if_neg hj]
      exact (hnode j).1
  · intro j
    by_cases hj : j = c' + 1
    · subst hj
      rw [updateDyn, if_pos rfl]
      exact (hnode _).2
    · rw [updateDyn, if_neg hj]
      exact (hnode j).2

theorem rootCanonSt_length (net : Net) (p n : Nat) (wvq : Option WV) :
    (rootCanonSt net p n wvq).outputs.length = n := by
  rw [rootCanonSt]
  show ((initDyn net p).outputs.snoc _).length = n
  rw [DelayedOutputCache.length_snoc]
  show 0 + slen ⟨0, n⟩ = n
  rw [slen]
  dsimp only
  omega

/-- Claim C4: `generate(n, with_values={"X": V})` on a child whose parents
are all root nodes makes X's cache hold exactly the literal-override chunk
for `[0, n)` (its own operation is never applied), X's subsequent `acquire`
over that range realizes to exactly `V` normalized to `n` rows, and a
sibling parent Y not named in the mapping gets a computed chunk applying
its own operation. -/
theorem claim_C4 (net : Net) (cn x y n : Nat) (V : ND) (wv : WV) (bs2 : Option Nat)
    (hn : 1 ≤ n)
    (hx : x ∈ net.parents cn) (hy : y ∈ net.parents cn)
    (hroots : ∀ p ∈ net.parents cn, net.parents p = [])
    (hwx : wvLookup (some wv) (net.name x) = some V)
    (hwy : wvLookup (some wv) (net.name y) = none) :
    ∃ r dF, Operation.generate net cn n none (some wv) (initDyn net) = (.ok r, dF) ∧
      (dF x).outputs.delayed_outputs =
        [⟨nodeIdOf net x 0, ⟨0, n⟩, true, .ok ⟨normalize_data V n⟩⟩] ∧
      (Operation.acquire net x n 0 bs2 dF).1 = .ok (.ok (normalize_data V n)) ∧
      (dF y).outputs.delayed_outputs =
        [⟨nodeIdOf net y 0, ⟨0, n⟩, false,
          net.op y ⟨[], n, 0⟩⟩] := by
  have hxlt := net.hpar cn x hx
  have hylt := net.hpar cn y hy
  obtain ⟨c', rfl⟩ : ∃ c', cn = c' + 1 := ⟨cn - 1, by omega⟩
  -- the with_values dictionary as the parents receive it
  set bv : Option WV := (normalize_data_dict (some wv) n).map
    (fun w => List.map (fun kv => (kv.1, kv.2.rowSlice ⟨0, n⟩)) w) with hbvdef
  obtain ⟨r1, dC, hchild, hcanon, hclen, hgidx, hres⟩ :=
    gs_child_roots net c' n hn bv hroots
  -- the with_values dictionary inside the parents' literal chunks
  have hWeq : normalize_data_dict (normalize_data_dict bv n) n =
      some (List.map (fun kv => (kv.1, normalize_data kv.2 n))
        (List.map (fun kv => (kv.1, normalize_data kv.2 n))
          (List.map (fun kv => (kv.1, ND.rowSlice kv.2 ⟨0, n⟩))
            (List.map (fun kv => (kv.1, normalize_data kv.2 n)) wv)))) := rfl
  have hWlookup : ∀ k, wvLookup (normalize_data_dict (normalize_data_dict bv n) n) k
      = ((((wvLookup (some wv) k).map (fun v => normalize_data v n)).map
          (fun v => ND.rowSlice v ⟨0, n⟩)).map (fun v => normalize_data v n)).map
          (fun v => normalize_data v n) := by
    intro k
    rw [hWeq]
    rw [wvLookup_map (List.map (fun kv => (kv.1, normalize_data kv.2 n))
        (List.map (fun kv => (kv.1, ND.rowSlice kv.2 ⟨0, n⟩))
          (List.map (fun kv => (kv.1, normalize_data kv.2 n)) wv)))
        (fun v => normalize_data v n) k]
    rw [wvLookup_map (List.map (fun kv => (kv.1, ND.rowSlice kv.2 ⟨0, n⟩))
        (List.map (fun kv => (kv.1, normalize_data kv.2 n)) wv))
        (fun v => normalize_data v n) k]
    rw [wvLookup_map (List.map (fun kv => (kv.1, normalize_data kv.2 n)) wv)
        (fun v => ND.rowSlice v ⟨0, n⟩) k]
    rw [wvLookup_map wv (fun v => normalize_data v n) k]
  have hWx : wvLookup (normalize_data_dict (normalize_data_dict bv n) n) (net.name x)
      = some (normalize_data V n) := by
    rw [hWlookup (net.name x), hwx]
    show some (normalize_data (normalize_data
        ((normalize_data V n).rowSlice ⟨0, n⟩) n) n) = _
    rw [normalize_data_idem_chain V n hn]
  have hWy : wvLookup (normalize_data_dict (normalize_data_dict bv n) n) (net.name y)
      = none := by
    rw [hWlookup (net.name y), hwy]
    rfl
  -- X's canonical state: the single literal chunk
  have hchx : dC x = rootCanonSt net x n (normalize_data_dict bv n) := hcanon x hx
  have hchy : dC y = rootCanonSt net y n (normalize_data_dict bv n) := hcanon y hy
  have hxchunks : (dC x).outputs.delayed_outputs =
      [⟨nodeIdOf net x 0, ⟨0, n⟩, true, .ok ⟨normalize_data V n⟩⟩] := by
    rw [hchx, rootCanonSt]
    show ((initDyn net x).outputs.snoc _).delayed_outputs = _
    rw [DelayedOutputCache.snoc_delayed_outputs]
    show [] ++ [gsChunk net x ⟨0, n⟩ (normalize_data_dict (normalize_data_dict bv n) n) 0 []] = _
    rw [List.nil_append, gsChunk_literal net x ⟨0, n⟩ _ 0 (normalize_data V n) hWx]
  have hychunks : (dC y).outputs.delayed_outputs =
      [⟨nodeIdOf net y 0, ⟨0, n⟩, false, net.op y ⟨[], n, 0⟩⟩] := by
    rw [hchy, rootCanonSt]
    show ((initDyn net y).outputs.snoc _).delayed_outputs = _
    rw [DelayedOutputCache.snoc_delayed_outputs]
    show [] ++ [gsChunk net y ⟨0, n⟩ (normalize_data_dict (normalize_data_dict bv n) n) 0 []] = _
    rw [List.nil_append, gsChunk_op net y ⟨0, n⟩ _ 0 hWy]
    have hslen : slen ⟨0, n⟩ = n := by rw [slen]; dsimp only; omega
    have hstart : (⟨0, n⟩ : Sl).start = 0 := rfl
    rw [hslen, hstart]
  have hxmask : (dC x).outputs.stored_mask = [false] := by
    rw [hchx, rootCanonSt]
    rfl
  -- run the generate loop: one batch, then exit
  obtain ⟨m, rfl⟩ : ∃ m, n = m + 1 := ⟨n - 1, by omega⟩
  have ha : (initDyn net (c' + 1)).generate_index = 0 := rfl
  have h0 : (initDyn net (c' + 1)).outputs.length = 0 := rfl
  have hbs : (match (none : Option Nat) with
    | none => m + 1 | some 0 => m + 1 | some k => k) = m + 1 := rfl
  have hloopstep : generate_loop net (c' + 1) (m + 1) 0 (m + 1) (m + 1)
      (normalize_data_dict (some wv) (m + 1)) (initDyn net) = (.ok (), dC) := by
    simp only [generate_loop]
    rw [if_pos (by rw [h0]; omega)]
    simp only [h0, Nat.sub_zero, Nat.min_self, Nat.zero_add]
    rw [← hbvdef]
    simp only [hchild]
    exact generate_loop_noop net (c' + 1) m 0 (m + 1) (m + 1) _ dC (by rw [hclen]; omega)
  have hgen : Operation.generate net (c' + 1) (m + 1) none (some wv) (initDyn net) =
      (.ok (((updateDyn dC (c' + 1) (fun s => { s with generate_index := m + 1 }))
          (c' + 1)).outputs.getItem ⟨0, m + 1⟩),
        updateDyn dC (c' + 1) (fun s => { s with generate_index := m + 1 })) := by
    simp only [Operation.generate, hbs, ha, Nat.zero_add]
    simp only [hloopstep]
  set dF := updateDyn dC (c' + 1) (fun s => { s with generate_index := m + 1 }) with hdF
  have hdFx : dF x = dC x := by
    rw [hdF, updateDyn, if_neg (by omega)]
  have hdFy : dF y = dC y := by
    rw [hdF, updateDyn, if_neg (by omega)]
  refine ⟨_, dF, hgen, ?_, ?_, ?_⟩
  · rw [hdFx]
    exact hxchunks
  · -- acquire on X realizes to the normalized override
    have hgx : (dF x).generate_index = 0 := by rw [hdFx]; exact hgidx x
    have hlx : (dF x).outputs.length = m + 1 := by
      rw [hdFx, hchx, rootCanonSt_length]
    simp only [Operation.acquire]
    rw [if_pos (by rw [hgx]; show 0 < (⟨0, 0 + (m + 1)⟩ : Sl).stop; dsimp only; omega)]
    have hgen2 : Operation.generate net x ((⟨0, 0 + (m + 1)⟩ : Sl).stop -
        (dF x).generate_index) bs2 none dF =
        (.ok (((updateDyn dF x (fun s => { s with generate_index :=
            (dF x).generate_index + ((⟨0, 0 + (m + 1)⟩ : Sl).stop -
              (dF x).generate_index) })) x).outputs.getItem
          ⟨(dF x).generate_index, (dF x).generate_index +
            ((⟨0, 0 + (m + 1)⟩ : Sl).stop - (dF x).generate_index)⟩),
          updateDyn dF x (fun s => { s with generate_index :=
            (dF x).generate_index + ((⟨0, 0 + (m + 1)⟩ : Sl).stop -
              (dF x).generate_index) })) := by
      simp only [Operation.generate]
      rw [generate_loop_noop]
      rw [hlx, hgx]
      show ¬ m + 1 < 0 + ((⟨0, 0 + (m + 1)⟩ : Sl).stop - 0)
      dsimp only
      omega
    simp only [hgen2]
    set dx2 := updateDyn dF x (fun s => { s with generate_index :=
      (dF x).generate_index + ((⟨0, 0 + (m + 1)⟩ : Sl).stop -
        (dF x).generate_index) }) with hdx2
    have hdx2x : (dx2 x).outputs = (dF x).outputs := by
      rw [hdx2, updateDyn, if_pos rfl]
    have hcov : ¬ (dx2 x).outputs.length < (⟨0, 0 + (m + 1)⟩ : Sl).stop := by
      rw [hdx2x, hlx]
      dsimp only
      omega
    rw [Operation.get_slice, get_sliceF_covered net x x _ none dx2 hcov]
    show Except.ok ((dx2 x).outputs.getItem ⟨0, 0 + (m + 1)⟩) = _
    have hgi : (dx2 x).outputs.getItem ⟨0, 0 + (m + 1)⟩ =
        Except.ok (normalize_data V (m + 1)) := by
      have := getItem_single ((dx2 x).outputs)
        ⟨nodeIdOf net x 0, ⟨0, m + 1⟩, true, .ok ⟨normalize_data V (m + 1)⟩⟩
        ⟨0, 0 + (m + 1)⟩ ?_ ?_ ?_ ?_
      · rw [this]
        rfl
      · rw [hdx2x, hdFx]
        exact hxchunks
      · rw [hdx2x, hdFx]
        exact hxmask
      · show (⟨0, m + 1⟩ : Sl) = ⟨0, 0 + (m + 1)⟩
        rw [Nat.zero_add]
      · rw [slen]
        dsimp only
        omega
    rw [hgi]
  · rw [hdFy]
    exact hychunks

/-- Witness for C4: the concrete X/Y/C family with override `{"X": 4}`. -/
theorem claim_C4_witness :
    ∃ r dF, Operation.generate exNetC4 2 2 none (some [("X", .atom 4)])
        (initDyn exNetC4) = (.ok r, dF) ∧
      (dF 0).outputs.delayed_outputs =
        [⟨nodeIdOf exNetC4 0 0, ⟨0, 2⟩, true, .ok ⟨normalize_data (.atom 4) 2⟩⟩] ∧
      (Operation.acquire exNetC4 0 2 0 none dF).1 =
        .ok (.ok (normalize_data (.atom 4) 2)) ∧
      (dF 1).outputs.delayed_outputs =
        [⟨nodeIdOf exNetC4 1 0, ⟨0, 2⟩, false, exNetC4.op 1 ⟨[], 2, 0⟩⟩] :=
  claim_C4 exNetC4 2 0 1 2 (.atom 4) [("X", .atom 4)] none (by omega)
    (by decide) (by decide) (by decide) rfl rfl

/-!  The structural graph layer. -/

theorem dedup_fold_preserve (l : List Nat) :
    ∀ (acc : List Nat) (x : Nat), x ∈ acc →
    x ∈ List.foldl (fun a m => if m ∈ a then a else a ++ [m]) acc l := by
  induction l with
  | nil => intro acc x hx; exact hx
  | cons m l ih =>
    intro acc x hx
    simp only [List.foldl_cons]
    by_cases hm : m ∈ acc
    · rw [if_pos hm]; exact ih acc x hx
    · rw [if_neg hm]; exact ih _ x (List.mem_append_left _ hx)

theorem dedup_fold_adds (l : List Nat) :
    ∀ (acc : List Nat) (x : Nat), x ∈ l →
    x ∈ List.foldl (fun a m => if m ∈ a then a else a ++ [m]) acc l := by
  induction l with
  | nil => intro acc x hx; exact absurd hx (List.not_mem_nil x)
  | cons m l ih =>
    intro acc x hx
    simp only [List.foldl_cons]
    rcases List.mem_cons.mp hx with rfl | hx
    · by_cases hm : x ∈ acc
      · rw [if_pos hm]; exact dedup_fold_preserve l acc x hm
      · rw [if_neg hm]
        exact dedup_fold_preserve l _ x (List.mem_append_right _ (List.mem_singleton.mpr rfl))
    · by_cases hm : m ∈ acc
      · rw [if_pos hm]; exact ih acc x hx
      · rw [if_neg hm]; exact ih _ x hx

theorem desc_outer_preserve (st : GSt) (fuel : Nat) (cs : List Nat) :
    ∀ (acc : List Nat) (x : Nat), x ∈ acc →
    x ∈ List.foldl (fun acc c =>
      (descendantsL fuel st c).foldl (fun a m => if m ∈ a then a else a ++ [m]) acc)
      acc cs := by
  induction cs with
  | nil => intro acc x hx; exact hx
  | cons c cs ih =>
    intro acc x hx
    simp only [List.foldl_cons]
    exact ih _ x (dedup_fold_preserve _ acc x hx)

theorem desc_outer_adds (st : GSt) (fuel : Nat) (cs : List Nat) :
    ∀ (acc : List Nat) (c x : Nat), c ∈ cs → x ∈ descendantsL fuel st c →
    x ∈ List.foldl (fun acc c =>
      (descendantsL fuel st c).foldl (fun a m => if m ∈ a then a else a ++ [m]) acc)
      acc cs := by
  induction cs with
  | nil => intro _ _ _ hc; exact absurd hc (List.not_mem_nil _)
  | cons c0 cs ih =>
    intro acc c x hc hx
    simp only [List.foldl_cons]
    rcases List.mem_cons.mp hc with rfl | hc
    · exact desc_outer_preserve st fuel cs _ x (dedup_fold_adds _ acc x hx)
    · exact ih _ c x hc hx

theorem mem_descendantsL_of_reach (st : GSt)
    (hwf : ∀ a, a < st.length → ∀ c ∈ (gnode st a).children, a < c ∧ c < st.length) :
    ∀ (fuel i j : Nat), i < st.length → st.length - i ≤ fuel →
    GReach st i j → j ∈ descendantsL fuel st i := by
  intro fuel
  induction fuel with
  | zero => intro i j hi hf _; omega
  | succ fuel ih =>
    intro i j hi hf hr
    cases hr with
    | child hc =>
      simp only [descendantsL]
      exact desc_outer_preserve st fuel (gnode st i).children _ j hc
    | trans hc hr =>
      rename_i c
      have hcw := hwf i hi c hc
      have hj : j ∈ descendantsL fuel st c := ih c j hcw.2 (by omega) hr
      simp only [descendantsL]
      exact desc_outer_adds st fuel (gnode st i).children _ c j hc hj

theorem GReach_snoc (st : GSt) (b c a : Nat) (h : GReach st b c)
    (ha : a ∈ (gnode st c).children) : GReach st b a := by
  induction h with
  | child hc => exact GReach.trans hc (GReach.child ha)
  | trans hc _ ih => exact GReach.trans hc (ih ha)

theorem GReach_of_ancestor (st : GSt) (hwf : GWf st) :
    ∀ (a b : Nat), a < st.length → GAncestor st a b → GReach st b a := by
  intro a b ha h
  induction h with
  | parent hp =>
    rename_i a' b'
    have hb' : b' < st.length := hwf.2.1 a' ha b' hp
    exact GReach.child ((hwf.2.2 b' hb' a' ha).mpr hp)
  | trans hp hanc ih =>
    rename_i a' c b'
    have hc : c < st.length := hwf.2.1 a' ha c hp
    exact GReach_snoc st b' c a' (ih hc) ((hwf.2.2 c hc a' ha).mpr hp)

/-- Claim C7: adding node A as a parent of B when B is already an ancestor
of A fails with the cycle error, and the returned store is exactly the
original one — both nodes' adjacency lists are unchanged. -/
theorem claim_C7 (st : GSt) (a b : Nat) (idx idxc : Option Int)
    (hwf : GWf st) (ha : a < st.length) (hanc : GAncestor st a b) :
    Node.add_parent st b (some a) idx idxc =
      (some "Cannot have cyclic graph structure.", st) := by
  have hreach : GReach st b a := GReach_of_ancestor st hwf a b ha hanc
  have hb : b < st.length := by
    by_contra hblt
    have hdef : gnode st b = ⟨"", [], []⟩ := by
      rw [gnode, List.getD_eq_default]
      omega
    cases hreach with
    | child hc => rw [hdef] at hc; exact absurd hc (List.not_mem_nil a)
    | trans hc _ => rw [hdef] at hc; simp at hc
  have hmem : a ∈ Node.descendants st b :=
    mem_descendantsL_of_reach st hwf.1 st.length b a hb (by omega) hreach
  simp only [Node.add_parent]
  rw [if_pos hmem]

/-- Witness for C7: a two-node store where node 0 is a parent of node 1;
adding node 1 as a parent of node 0 is rejected with the store unchanged. -/
theorem claim_C7_witness :
    Node.add_parent [⟨"b", [], [1]⟩, ⟨"a", [0], []⟩] 0 (some 1) none none =
      (some "Cannot have cyclic graph structure.",
        [⟨"b", [], [1]⟩, ⟨"a", [0], []⟩]) :=
  claim_C7 [⟨"b", [], [1]⟩, ⟨"a", [0], []⟩] 1 0 none none
    (by refine ⟨?_, ?_, ?_⟩ <;> decide) (by decide)
    (GAncestor.parent (by decide))

/-- Counterexample to C8 as stated: with two fresh nodes, `add_parent` with
a valid parents-index but an out-of-range children-index raises the bounds
error only after the new parent has already been inserted into
`self.parents` — the graph is left partially mutated. -/
theorem claim_C8_counterexample :
    (Node.add_parent [⟨"a", [], []⟩, ⟨"b", [], []⟩] 0 (some 1) none (some 5)).1 =
      some "Index out of bounds." ∧
    (gnode (Node.add_parent [⟨"a", [], []⟩, ⟨"b", [], []⟩] 0 (some 1) none (some 5)).2
      0).parents = [1] ∧
    (gnode [(⟨"a", [], []⟩ : GNode), ⟨"b", [], []⟩] 0).parents = [] := by
  refine ⟨?_, ?_, ?_⟩ <;> rfl

theorem gnode_gset_ne (st : GSt) (i j : Nat) (r : GNode) (h : j ≠ i) :
    gnode (gset st i r) j = gnode st j := by
  simp only [gnode, gset]
  rw [List.getD_eq_getElem?_getD, List.getElem?_set_ne (fun he => h he.symm),
    ← List.getD_eq_getElem?_getD]

/-- Claim C8 (amended): an out-of-range parents-list index raises the
bounds error with the store unchanged; an out-of-range children-list index
raises the bounds error only after `self.parents` has been mutated — the
result is exactly the store with the new parent already inserted at the
tail of `self.parents` (children lists untouched). -/
theorem claim_C8_amended (st : GSt) (i j : Nat)
    (hnd : j ∉ Node.descendants st i) (hnp : j ∉ (gnode st i).parents) :
    (∀ (ix : Int) (idxc : Option Int),
      (ix < 0 ∨ ix > ((gnode st i).parents.length : Int)) →
      Node.add_parent st i (some j) (some ix) idxc = (some "Index out of bounds.", st)) ∧
    (∀ ic : Int,
      (ic < 0 ∨ ic > ((gnode st j).children.length : Int)) →
      i ∉ (gnode st j).children → i ≠ j →
      Node.add_parent st i (some j) none (some ic) =
        (some "Index out of bounds.",
          gset st i { gnode st i with parents := (gnode st i).parents ++ [j] })) := by
  constructor
  · intro ix idxc hoor
    simp only [Node.add_parent]
    rw [if_neg hnd, if_neg hnp, if_pos hoor]
  · intro ic hoor hnc hij
    simp only [Node.add_parent]
    rw [if_neg hnd, if_neg hnp]
    simp only [Node.add_child]
    rw [gnode_gset_ne st i j _ (fun he => hij he.symm)]
    rw [if_neg hnc, if_pos hoor]

/-- Witness for the amended C8: both failure modes at concrete inputs. -/
theorem claim_C8_amended_witness :
    (∀ (ix : Int) (idxc : Option Int),
      (ix < 0 ∨ ix > ((gnode [⟨"a", [], []⟩, ⟨"b", [], []⟩] 0).parents.length : Int)) →
      Node.add_parent [⟨"a", [], []⟩, ⟨"b", [], []⟩] 0 (some 1) (some ix) idxc =
        (some "Index out of bounds.", [⟨"a", [], []⟩, ⟨"b", [], []⟩])) ∧
    (∀ ic : Int,
      (ic < 0 ∨ ic > ((gnode [⟨"a", [], []⟩, ⟨"b", [], []⟩] 1).children.length : Int)) →
      0 ∉ (gnode [⟨"a", [], []⟩, ⟨"b", [], []⟩] 1).children → 0 ≠ 1 →
      Node.add_parent [⟨"a", [], []⟩, ⟨"b", [], []⟩] 0 (some 1) none (some ic) =
        (some "Index out of bounds.",
          gset [⟨"a", [], []⟩, ⟨"b", [], []⟩] 0
            { gnode [⟨"a", [], []⟩, ⟨"b", [], []⟩] 0 with
              parents := (gnode [⟨"a", [], []⟩, ⟨"b", [], []⟩] 0).parents ++ [1] })) :=
  claim_C8_amended [⟨"a", [], []⟩, ⟨"b", [], []⟩] 0 1 (by decide) (by decide)

theorem length_filter_le_of_imp (l : List GDictEntry') (p q : GDictEntry' → Bool)
    (himp : ∀ x, q x = true → p x = true) :
    (l.filter q).length ≤ (l.filter p).length := by
  induction l with
  | nil => simp
  | cons y l ih =>
    simp only [List.filter_cons]
    cases hq : q y with
    | true =>
      rw [himp y hq]
      simp only [eq_self_iff_true, if_true, List.length_cons]
      omega
    | false =>
      cases hp : p y with
      | true =>
        simp only [eq_self_iff_true, if_true, Bool.false_eq_true, if_false,
          List.length_cons]
        omega
      | false =>
        simp only [Bool.false_eq_true, if_false]
        exact ih

theorem length_filter_lt_of_witness (l : List GDictEntry') (p q : GDictEntry' → Bool)
    (himp : ∀ x, q x = true → p x = true) (x : GDictEntry') (hx : x ∈ l)
    (hpx : p x = true) (hqx : q x = false) :
    (l.filter q).length < (l.filter p).length := by
  induction l with
  | nil => exact absurd hx (List.not_mem_nil x)
  | cons y l ih =>
    simp only [List.filter_cons]
    rcases List.mem_cons.mp hx with rfl | hx
    · rw [hpx, hqx]
      have := length_filter_le_of_imp l p q himp
      simp only [eq_self_iff_true, if_true, Bool.false_eq_true, if_false,
        List.length_cons]
      omega
    · cases hq : q y with
      | true =>
        rw [himp y hq]
        have := ih hx
        simp only [eq_self_iff_true, if_true, List.length_cons]
        omega
      | false =>
        cases hp : p y with
        | true =>
          have := ih hx
          simp only [eq_self_iff_true, if_true, Bool.false_eq_true, if_false,
            List.length_cons]
          omega
        | false =>
          simp only [Bool.false_eq_true, if_false]
          exact ih hx

theorem freshNameF_not_mem (g : GDict) :
    ∀ (fuel : Nat) (nm : String),
    (g.filter (fun kv => nm.length ≤ kv.1.length)).length < fuel →
    g.any (fun kv => kv.1 = freshNameF fuel g nm) = false := by
  intro fuel
  induction fuel with
  | zero => intro nm h; omega
  | succ fuel ih =>
    intro nm h
    simp only [freshNameF]
    by_cases hmem : g.any (fun kv => kv.1 = nm) = true
    · simp only [hmem, if_true]
      apply ih
      obtain ⟨kv0, hkv0, hkeq⟩ := List.any_eq_true.mp hmem
      have hkeq' : kv0.1 = nm := of_decide_eq_true hkeq
      have h4 : String.length "_old" = 4 := rfl
      have hlapp : (nm ++ "_old").length = nm.length + 4 := by
        rw [String.length_append, h4]
      have hlt := length_filter_lt_of_witness g
        (fun kv => decide (nm.length ≤ kv.1.length))
        (fun kv => decide ((nm ++ "_old").length ≤ kv.1.length))
        (by
          intro x hx
          have hx' := of_decide_eq_true hx
          apply decide_eq_true
          omega)
        kv0 hkv0
        (by
          apply decide_eq_true
          rw [hkeq'])
        (by
          apply decide_eq_false
          rw [hkeq', hlapp]
          omega)
      exact Nat.lt_of_lt_of_le hlt (Nat.lt_succ_iff.mp h)
    · have hmem' : g.any (fun kv => kv.1 = nm) = false := Bool.eq_false_iff.mpr hmem
      simp only [hmem', Bool.false_eq_true, if_false]

theorem gnode_gset_self (st : GSt) (i : Nat) (r : GNode) (h : i < st.length) :
    gnode (gset st i r) i = r := by
  simp only [gnode, gset]
  rw [List.getD_eq_getElem?_getD, List.getElem?_set_eq_of_lt r h]
  rfl

theorem dictGet_update_self (g : GDict) (k : String) (v : Nat)
    (h : g.any (fun kv => kv.1 = k) = true) :
    dictGet (g.map (fun kv => if kv.1 = k then (k, v) else kv)) k = some v := by
  induction g with
  | nil => simp at h
  | cons kv g ih =>
    simp only [List.map_cons, dictGet, List.find?]
    by_cases hk : kv.1 = k
    · simp only [if_pos hk]
      simp
    · simp only [if_neg hk]
      have hd : (decide (kv.1 = k)) = false := by simp [hk]
      rw [hd]
      have htail : g.any (fun kv => kv.1 = k) = true := by
        rcases List.any_eq_true.mp h with ⟨kv0, hkv0, hkeq⟩
        rcases List.mem_cons.mp hkv0 with rfl | hkv0
        · exact absurd (of_decide_eq_true hkeq) hk
        · exact List.any_eq_true.mpr ⟨kv0, hkv0, hkeq⟩
      exact ih htail

theorem dictGet_update_ne (g : GDict) (k k' : String) (v : Nat) (h : k' ≠ k) :
    dictGet (g.map (fun kv => if kv.1 = k then (k, v) else kv)) k' = dictGet g k' := by
  induction g with
  | nil => rfl
  | cons kv g ih =>
    simp only [List.map_cons, dictGet, List.find?]
    by_cases hk : kv.1 = k
    · simp only [if_pos hk]
      have hkk : k ≠ k' := Ne.symm h
      have h1 : (decide ((k, v).1 = k')) = false := by simp [hkk]
      have h2 : (decide (kv.1 = k')) = false := by
        simp only [decide_eq_false_iff_not]
        rw [hk]
        exact hkk
      rw [h1, h2]
      exact ih
    · simp only [if_neg hk]
      cases hd : decide (kv.1 = k') with
      | true => rfl
      | false => exact ih

theorem dictGet_append_self (g : GDict) (k : String) (v : Nat)
    (h : g.any (fun kv => kv.1 = k) = false) :
    dictGet (g ++ [(k, v)]) k = some v := by
  induction g with
  | nil => simp [dictGet, List.find?]
  | cons kv g ih =>
    simp only [List.cons_append, dictGet, List.find?]
    have hk : (decide (kv.1 = k)) = false := by
      simp only [List.any_cons, Bool.or_eq_false_iff] at h
      exact h.1
    rw [hk]
    apply ih
    simp only [List.any_cons, Bool.or_eq_false_iff] at h
    exact h.2

theorem dictGet_append_ne (g : GDict) (k k' : String) (v : Nat) (h : k' ≠ k) :
    dictGet (g ++ [(k, v)]) k' = dictGet g k' := by
  induction g with
  | nil =>
    simp only [List.nil_append, dictGet, List.find?]
    have hk : (decide ((k, v).1 = k')) = false := by simp [Ne.symm h]
    rw [hk]
  | cons kv g ih =>
    simp only [List.cons_append, dictGet, List.find?]
    cases hd : decide (kv.1 = k') with
    | true => rfl
    | false => exact ih

theorem dictGet_dictSet_self (g : GDict) (k : String) (v : Nat) :
    dictGet (dictSet g k v) k = some v := by
  simp only [dictSet]
  by_cases h : g.any (fun kv => kv.1 = k) = true
  · rw [if_pos h]
    exact dictGet_update_self g k v h
  · rw [if_neg h]
    exact dictGet_append_self g k v (Bool.eq_false_iff.mpr h)

theorem dictGet_dictSet_ne (g : GDict) (k k' : String) (v : Nat) (h : k' ≠ k) :
    dictGet (dictSet g k v) k' = dictGet g k' := by
  simp only [dictSet]
  by_cases hh : g.any (fun kv => kv.1 = k) = true
  · rw [if_pos hh]
    exact dictGet_update_ne g k k' v h
  · rw [if_neg hh]
    exact dictGet_append_ne g k k' v h

theorem dictGet_some_any (g : GDict) (k : String) (v : Nat)
    (h : dictGet g k = some v) : g.any (fun kv => kv.1 = k) = true := by
  induction g with
  | nil => simp [dictGet] at h
  | cons kv g ih =>
    simp only [dictGet, List.find?] at h
    simp only [List.any_cons]
    cases hd : decide (kv.1 = k) with
    | true => simp [hd]
    | false =>
      rw [hd] at h
      simp only [hd, Bool.false_or]
      exact ih h

/-- C9: if the graph dict `g` maps name `N` to node `X` and a distinct
(unregistered) node `Y` in the store also carries name `N`, then
`Graph.add_node g st Y` (i) picks via the `"_old"`-suffix loop a name that
is fresh for `g`, (ii) registers `Y` under the original name `N`,
(iii) re-registers `X` under the fresh name, (iv) renames the stored
record of `X` to the fresh name while preserving its parents and children
lists, and (v) adding any node already registered in `g` changes nothing
(dedup by identity). -/
theorem claim_C9 (g : GDict) (st : GSt) (X Y : Nat) (N : String)
    (hXlt : X < st.length)
    (hN : dictGet g N = some X)
    (hYnew : Y ∉ g.map (fun kv => kv.2))
    (hYname : (gnode st Y).gname = N) :
    g.any (fun kv => kv.1 = freshNameF (g.length + 1) g N) = false ∧
    dictGet (Graph.add_node g st Y).1 N = some Y ∧
    dictGet (Graph.add_node g st Y).1 (freshNameF (g.length + 1) g N) = some X ∧
    (gnode (Graph.add_node g st Y).2 X).gname = freshNameF (g.length + 1) g N ∧
    (gnode (Graph.add_node g st Y).2 X).parents = (gnode st X).parents ∧
    (gnode (Graph.add_node g st Y).2 X).children = (gnode st X).children ∧
    (∀ Z, Z ∈ g.map (fun kv => kv.2) → Graph.add_node g st Z = (g, st)) := by
  have hfreshlt : (g.filter (fun kv => N.length ≤ kv.1.length)).length < g.length + 1 := by
    have hle := List.length_filter_le (fun kv => decide (N.length ≤ kv.1.length)) g
    omega
  have hfresh : g.any (fun kv => kv.1 = freshNameF (g.length + 1) g N) = false :=
    freshNameF_not_mem g (g.length + 1) N hfreshlt
  have hNany : g.any (fun kv => kv.1 = N) = true := dictGet_some_any g N X hN
  have hne : freshNameF (g.length + 1) g N ≠ N := by
    intro he
    have hcontra : g.any (fun kv => kv.1 = N) = false := he ▸ hfresh
    rw [hcontra] at hNany
    exact Bool.false_ne_true hNany
  have hcondF : ¬ ((g.any (fun kv => kv.1 = freshNameF (g.length + 1) g N)) = true) := by
    rw [hfresh]; exact Bool.false_ne_true
  have hset1 : dictSet g (freshNameF (g.length + 1) g N) X
      = g ++ [(freshNameF (g.length + 1) g N, X)] := by
    simp only [dictSet]
    rw [if_neg hcondF]
  have hg1any : (g ++ [(freshNameF (g.length + 1) g N, X)]).any
      (fun kv => kv.1 = N) = true := by
    rw [List.any_append, hNany]
    rfl
  have hset2 : dictSet (g ++ [(freshNameF (g.length + 1) g N, X)]) N Y
      = (g ++ [(freshNameF (g.length + 1) g N, X)]).map
          (fun kv => if kv.1 = N then (N, Y) else kv) := by
    simp only [dictSet]
    rw [if_pos hg1any]
  have hres : Graph.add_node g st Y
      = (dictSet (dictSet g (freshNameF (g.length + 1) g N) X) N Y,
         Node.rename st X (freshNameF (g.length + 1) g N)) := by
    simp only [Graph.add_node]
    rw [if_neg hYnew]
    simp only [hYname, hN]
  refine ⟨hfresh, ?_, ?_, ?_, ?_, ?_, ?_⟩
  · rw [hres]
    dsimp only
    rw [hset1, hset2]
    exact dictGet_update_self _ N Y hg1any
  · rw [hres]
    dsimp only
    rw [hset1, hset2]
    rw [dictGet_update_ne _ N (freshNameF (g.length + 1) g N) Y hne]
    exact dictGet_append_self g _ X hfresh
  · rw [hres]
    dsimp only
    simp only [Node.rename]
    rw [gnode_gset_self st X _ hXlt]
  · rw [hres]
    dsimp only
    simp only [Node.rename]
    rw [gnode_gset_self st X _ hXlt]
  · rw [hres]
    dsimp only
    simp only [Node.rename]
    rw [gnode_gset_self st X _ hXlt]
  · intro Z hZ
    simp only [Graph.add_node]
    rw [if_pos hZ]

theorem claim_C9_witness :
    (0 < ([⟨"n", [2], [3]⟩, ⟨"n", [], []⟩] : GSt).length) ∧
    dictGet [("n", 0)] "n" = some 0 ∧
    (1 ∉ ([("n", 0)] : GDict).map (fun kv => kv.2)) ∧
    (gnode [⟨"n", [2], [3]⟩, ⟨"n", [], []⟩] 1).gname = "n" ∧
    (([("n", 0)] : GDict).any
        (fun kv => kv.1 = freshNameF 2 [("n", 0)] "n") = false ∧
      dictGet (Graph.add_node [("n", 0)] [⟨"n", [2], [3]⟩, ⟨"n", [], []⟩] 1).1 "n"
        = some 1 ∧
      dictGet (Graph.add_node [("n", 0)] [⟨"n", [2], [3]⟩, ⟨"n", [], []⟩] 1).1
        (freshNameF 2 [("n", 0)] "n") = some 0 ∧
      (gnode (Graph.add_node [("n", 0)] [⟨"n", [2], [3]⟩, ⟨"n", [], []⟩] 1).2 0).gname
        = freshNameF 2 [("n", 0)] "n" ∧
      (gnode (Graph.add_node [("n", 0)] [⟨"n", [2], [3]⟩, ⟨"n", [], []⟩] 1).2 0).parents
        = (gnode [⟨"n", [2], [3]⟩, ⟨"n", [], []⟩] 0).parents ∧
      (gnode (Graph.add_node [("n", 0)] [⟨"n", [2], [3]⟩, ⟨"n", [], []⟩] 1).2 0).children
        = (gnode [⟨"n", [2], [3]⟩, ⟨"n", [], []⟩] 0).children ∧
      (∀ Z, Z ∈ ([("n", 0)] : GDict).map (fun kv => kv.2) →
        Graph.add_node [("n", 0)] [⟨"n", [2], [3]⟩, ⟨"n", [], []⟩] Z
          = ([("n", 0)], [⟨"n", [2], [3]⟩, ⟨"n", [], []⟩]))) :=
  ⟨by decide, rfl, by decide, rfl,
    claim_C9 [("n", 0)] [⟨"n", [2], [3]⟩, ⟨"n", [], []⟩] 0 1 "n"
      (by decide) rfl (by decide) rfl⟩
